import Mathlib

/-!
# Retry with backoff: `Run` and the decorrelated-jitter retryer

A shallow embedding of package `backoff` (`backoff.go`).

* Go `int` is the 64-bit two's complement integer: arithmetic on the attempt
  counter is followed by `wrapInt`.
* `time.Duration` is a signed count of nanoseconds.
* A `float64` is represented by the rational number it denotes. The conversion of an
  `int` rounds to the nearest double, as in Go. The `float64` arithmetic inside
  `Duration.Seconds` is taken as exact, so the value of `Duration.Seconds` is the
  quotient itself and not the double nearest to it.
* Stateful collaborators (the retryer, the work function, the context) act on an
  explicit world state `W` that is threaded through every call.
* `Run` is a loop that need not terminate, so the embedding takes a bound on the
  number of loop iterations and returns `none` when the bound is reached.
-/

namespace Backoff

/-! ## Go base types -/

/-- Go `time.Duration`: nanoseconds as a signed integer. -/
abbrev Duration := Int

/-- Go `error`: `none` is the `nil` error, `some e` a non-nil error value. -/
abbrev error (ε : Type) : Type := Option ε

/-- A Go pointer `*T`: `none` is `nil`. -/
abbrev Ptr (α : Type) : Type := Option α

/-- Two's complement wrap-around of an integer into the range of Go `int`
(64 bits): `[-2^63, 2^63)`. -/
def wrapInt (x : Int) : Int :=
  (x + 9223372036854775808) % 18446744073709551616 - 9223372036854775808

/-! ## `Retryer` and `Run` (backoff.go, lines 77-114) -/

/-- The `Retryer` interface. Each method takes the world before the call and returns
its result together with the world after the call. -/
structure Retryer (W : Type) where
  /-- Method `Next() bool`. -/
  Next : W → Bool × W
  /-- Method `Delay() time.Duration`. -/
  Delay : W → Duration × W
  /-- Method `Reset()`. -/
  Reset : W → W

/-- A work function `f func(attempt int) error`. -/
abbrev Work (W ε : Type) : Type := Int → W → error ε × W

/-- The context as `Run` uses it: the `select` between `time.After(d)` and
`ctx.Done()`. `ctx d w = (true, w1)` when `ctx.Done()` is received first,
`(false, w1)` when the timer is received first. -/
abbrev Context (W : Type) : Type := Duration → W → Bool × W

/-- What `Run` does, in order. -/
inductive Event (ε : Type) where
  /-- Call `r.Next()` returned `ok`. -/
  | next (ok : Bool)
  /-- Call `f(attempt)` returned `err`. -/
  | call (attempt : Int) (err : error ε)
  /-- Call `r.Delay()` returned `d`. -/
  | delay (d : Duration)
  /-- The wait ended with the timer: `case <-time.After(d)`. -/
  | timer (d : Duration)
  /-- The wait ended with the cancellation: `case <-ctx.Done()`. -/
  | done (d : Duration)
  deriving DecidableEq, Repr

/-- What a call of `Run` yields: the returned error and the calls it made. -/
structure Result (ε : Type) where
  /-- The value `Run` returns. -/
  err : error ε
  /-- The calls `Run` made, oldest first. -/
  trace : List (Event ε)
  deriving DecidableEq, Repr

/-- Put events in front of the trace of a result. -/
def Result.after {ε : Type} (es : List (Event ε)) (res : Result ε) : Result ε :=
  { err := res.err, trace := es ++ res.trace }

/-- The loop `for i := 1; r.Next(); i++ { ... }` of `Run`, entered at the loop
condition with counter `i`, last error `err` and world `w`, for at most `fuel`
evaluations of the loop condition. -/
def Run.loop {W ε : Type} (ctx : Context W) (r : Retryer W) (f : Work W ε) :
    Nat → Int → error ε → W → Option (Result ε)
  | 0, _, _, _ => none
  | fuel + 1, i, err, w =>
    match r.Next w with
    | (false, _) => some { err := err, trace := [Event.next false] }
    | (true, w1) =>
      match f i w1 with
      | (none, _) => some { err := none, trace := [Event.next true, Event.call i none] }
      | (some e, w2) =>
        match r.Delay w2 with
        | (d, w3) =>
          if 0 < d then
            match ctx d w3 with
            | (true, _) =>
              some { err := some e,
                     trace := [Event.next true, Event.call i (some e), Event.delay d,
                               Event.done d] }
            | (false, w4) =>
              (Run.loop ctx r f fuel (wrapInt (i + 1)) (some e) w4).map
                (Result.after [Event.next true, Event.call i (some e), Event.delay d,
                               Event.timer d])
          else
            (Run.loop ctx r f fuel (wrapInt (i + 1)) (some e) w3).map
              (Result.after [Event.next true, Event.call i (some e), Event.delay d])

/-- Function `Run(ctx, r, f)` started in world `w`: `var err error` is `nil`, `i := 1`. -/
def Run {W ε : Type} (fuel : Nat) (ctx : Context W) (r : Retryer W) (f : Work W ε)
    (w : W) : Option (Result ε) :=
  Run.loop ctx r f fuel 1 none w

/-! ## Reading a trace -/

/-- The invocations of `f` in a trace: attempt argument and returned value. -/
def calls {ε : Type} : List (Event ε) → List (Int × error ε)
  | [] => []
  | Event.call i e :: es => (i, e) :: calls es
  | _ :: es => calls es

/-- The values returned by `r.Delay()` in a trace. -/
def delays {ε : Type} : List (Event ε) → List Duration
  | [] => []
  | Event.delay d :: es => d :: delays es
  | _ :: es => delays es

/-- The results of `r.Next()` in a trace. -/
def nexts {ε : Type} : List (Event ε) → List Bool
  | [] => []
  | Event.next b :: es => b :: nexts es
  | _ :: es => nexts es

/-! ## The world along a run of failed attempts -/

/-- The world after one pass through the loop body in which `f` failed and the wait,
if any, ended with the timer: `r.Next()`, `f(i)`, `r.Delay()`, wait. -/
def pass {W ε : Type} (ctx : Context W) (r : Retryer W) (f : Work W ε) (i : Int)
    (w : W) : W :=
  let w2 := (f i (r.Next w).2).2
  let dw := r.Delay w2
  if 0 < dw.1 then (ctx dw.1 dw.2).2 else dw.2

/-- Counter and world at the loop condition after `j` such passes, from `(i, w)`. -/
def passes {W ε : Type} (ctx : Context W) (r : Retryer W) (f : Work W ε) :
    Nat → Int × W → Int × W
  | 0, p => p
  | j + 1, p => passes ctx r f j (wrapInt (p.1 + 1), pass ctx r f p.1 p.2)

/-- Whether the pass that starts in world `w` ends with the cancellation: the delay is
positive and `ctx.Done()` wins the `select`. -/
def cancels {W ε : Type} (ctx : Context W) (r : Retryer W) (f : Work W ε) (i : Int)
    (w : W) : Bool :=
  let dw := r.Delay (f i (r.Next w).2).2
  decide (0 < dw.1) && (ctx dw.1 dw.2).1

/-- Events of one pass through the loop body in which `f` failed and the wait, if any,
ended with the timer. -/
def passEvents {W ε : Type} (r : Retryer W) (f : Work W ε) (i : Int) (w : W) :
    List (Event ε) :=
  let fw := f i (r.Next w).2
  let dw := r.Delay fw.2
  [Event.next true, Event.call i fw.1, Event.delay dw.1] ++
    (if 0 < dw.1 then [Event.timer dw.1] else [])

/-- Events of `j` consecutive such passes, from `(i, w)`. -/
def passesEvents {W ε : Type} (ctx : Context W) (r : Retryer W) (f : Work W ε) :
    Nat → Int × W → List (Event ε)
  | 0, _ => []
  | j + 1, p =>
    passEvents r f p.1 p.2 ++
      passesEvents ctx r f j (wrapInt (p.1 + 1), pass ctx r f p.1 p.2)

/-- The variable `err` after `j` consecutive such passes, from `(i, w)`. -/
def passesErr {W ε : Type} (ctx : Context W) (r : Retryer W) (f : Work W ε) :
    Nat → Int × W → error ε → error ε
  | 0, _, err => err
  | j + 1, p, _ =>
    passesErr ctx r f j (wrapInt (p.1 + 1), pass ctx r f p.1 p.2)
      (f p.1 (r.Next p.2).2).1

/-- The pass from `p` goes round the loop: `Next` allows the attempt, `f` fails and the
wait is not cancelled. -/
def Retries {W ε : Type} (ctx : Context W) (r : Retryer W) (f : Work W ε)
    (p : Int × W) : Prop :=
  (r.Next p.2).1 = true ∧ (f p.1 (r.Next p.2).2).1 ≠ none ∧
    cancels ctx r f p.1 p.2 = false

/-! ## Configuration (backoff.go, lines 10-75) -/

/-- Constant `time.Millisecond`. -/
def Millisecond : Duration := 1000000

/-- Constant `time.Second`. -/
def Second : Duration := 1000000000

/-- Method `Duration.Seconds()`: the duration as a number of seconds. The method
computes `float64(d / Second) + float64(d % Second) / 1e9` in `float64` arithmetic; here
the arithmetic is exact, so the value is the quotient `d / 10^9` and not the double
nearest to it. -/
def Duration.Seconds (d : Duration) : ℚ := (d : ℚ) / 1000000000

/-- The integer that `float64(n)` denotes: `n` itself when its magnitude is at most
`2^53`, and otherwise `n` rounded to a significand of 53 bits, to the nearest and on a
tie to the even significand. -/
def float64Int (n : Int) : Int :=
  if n.natAbs ≤ 9007199254740992 then n
  else
    let e := Nat.log2 n.natAbs - 52
    let q := n.natAbs / 2 ^ e
    let r := n.natAbs % 2 ^ e
    let m := if 2 * r < 2 ^ e then q else if 2 ^ e < 2 * r then q + 1
             else if q % 2 = 0 then q else q + 1
    if 0 ≤ n then ((m * 2 ^ e : Nat) : Int) else -((m * 2 ^ e : Nat) : Int)

/-- Conversion `float64(n)` for an `int`: the double nearest to `n`. -/
def float64 (n : Int) : ℚ := (float64Int n : ℚ)

/-- Constant `MaxRetries` is a default number of retries. -/
def MaxRetries : Int := 10

/-- Constant `Multiplier` is a default delay used as a multiplier that increases the wait
interval. -/
def Multiplier : Duration := 25 * Millisecond

/-- Constant `MaxWait` is a maximum delay by default. -/
def MaxWait : Duration := 20 * Second

/-- Type `rand.Rand` as the package uses it: a source of uniform values in `[0, 1)`, given
by the values it yields and the number of values drawn so far. -/
structure Rand where
  /-- The `n`-th value the source yields. -/
  seq : Nat → ℚ
  /-- How many values have been drawn. -/
  pos : Nat
  /-- Every value lies in `[0, 1)`. -/
  unit : ∀ n, 0 ≤ seq n ∧ seq n < 1

/-- Method `(*rand.Rand).Float64()`: the next value, and the source after the draw. -/
def Rand.Float64 (g : Rand) : ℚ × Rand :=
  (g.seq g.pos, { g with pos := g.pos + 1 })

/-- Type `Config` configures a retrier. -/
structure Config where
  /-- Field `random *rand.Rand`. -/
  random : Ptr Rand
  /-- Field `maxRetries float64`: how many times the work should be retried. -/
  maxRetries : ℚ
  /-- Field `multiplierSeconds float64`. -/
  multiplierSeconds : ℚ
  /-- Field `maxWaitSeconds float64`. -/
  maxWaitSeconds : ℚ

/-- Type `Option` sets up a `Config`: `type Option func(*Config)`. -/
abbrev Option : Type := Config → Config

/-- Option `WithRand` sets a pseudo-random number generator. -/
def WithRand (r : Ptr Rand) : Option := fun c =>
  { c with random := r }

/-- Option `WithMaxRetries` sets an upper limit on retries. -/
def WithMaxRetries (n : Int) : Option := fun c =>
  if n < 0 then { c with maxRetries := float64 MaxRetries }
  else { c with maxRetries := float64 n }

/-- Option `WithMultiplier` sets a multiplier that increases the wait interval. -/
def WithMultiplier (d : Duration) : Option := fun c =>
  if d ≤ 0 then { c with multiplierSeconds := Multiplier.Seconds }
  else { c with multiplierSeconds := d.Seconds }

/-- Option `WithMaxWait` sets an upper limit of waiting time between attempts. -/
def WithMaxWait (d : Duration) : Option := fun c =>
  if d ≤ 0 then { c with maxWaitSeconds := MaxWait.Seconds }
  else { c with maxWaitSeconds := d.Seconds }

/-- The arguments of one call of an exported option constructor. -/
inductive Setting where
  /-- Arguments of `WithRand(r)`. -/
  | rand (r : Ptr Rand)
  /-- Arguments of `WithMaxRetries(n)`. -/
  | maxRetries (n : Int)
  /-- Arguments of `WithMultiplier(d)`. -/
  | multiplier (d : Duration)
  /-- Arguments of `WithMaxWait(d)`. -/
  | maxWait (d : Duration)

/-- The option a setting stands for. -/
def Setting.option : Setting → Option
  | Setting.rand r => WithRand r
  | Setting.maxRetries n => WithMaxRetries n
  | Setting.multiplier d => WithMultiplier d
  | Setting.maxWait d => WithMaxWait d

/-! ## The decorrelated-jitter retryer

`decorr_jitter.go` is not among the sources at hand; `decorr_jitter_test.go` and
`backoff_test.go` only call it. The definitions of this section follow the
specification of the delay policy (sections 3, 4.1, 4.3 and 6): the recurrence of
section 4.1 and its edge policy, by which the first delay is the base delay scaled by
the random draw. The delays expected by `decorr_jitter_test.go` are those of the missing
file. Their first delays are below the base delay, as the edge policy says, but the
later ones do not follow the recurrence: it bounds a delay by three times the one
before, and the table has 276.211616 ms followed by 1.351602683 s. -/

/-- Modelled from the spec: the state of the delay policy, type `DecorrJitter` of the
missing `decorr_jitter.go`. Section 3: `attemptIndex` is an integer counter that starts
at 0, `previousDelay` is the most recently returned non-zero delay as a number of
seconds and starts at 0, `randomSource` is the generator of uniform values, and the
state is bound to one configuration. -/
structure DecorrJitter where
  /-- The configuration the policy was created with. -/
  cfg : Config
  /-- Number of calls of `Next` since creation or `Reset`. -/
  attemptIndex : Nat
  /-- The delay computed last, in seconds. -/
  previousDelay : ℚ
  /-- The source of uniform values in `[0, 1)`. -/
  randomSource : Rand

/-- Modelled from the spec: the configuration `NewDecorrJitter` starts from. Section 6:
the defaults `MaxRetries`, `Multiplier`, `MaxWait` hold for a field that is left unset;
the random source is unset. -/
def defaultConfig : Config :=
  { random := none
    maxRetries := float64 MaxRetries
    multiplierSeconds := Multiplier.Seconds
    maxWaitSeconds := MaxWait.Seconds }

/-- Modelled from the spec: constructor `NewDecorrJitter(options ...Option)` of the
missing `decorr_jitter.go`. Section 4.3: the options are applied in order; sections 1
and 9: a random source that was not injected defaults to a process-seeded generator,
here the argument `seeded`; section 3: the counter and the previous delay start at 0. -/
def NewDecorrJitter (seeded : Rand) (options : List Option) : DecorrJitter :=
  let cfg := options.foldl (fun c opt => opt c) defaultConfig
  { cfg := cfg
    attemptIndex := 0
    previousDelay := 0
    randomSource := cfg.random.getD seeded }

/-- Modelled from the spec: method `Next` (`Advance()` in section 4.1) of the missing
`decorr_jitter.go`: increments `attemptIndex` and returns `true` while
`attemptIndex <= maxRetries + 1`. -/
def DecorrJitter.Next (p : DecorrJitter) : Bool × DecorrJitter :=
  let q := { p with attemptIndex := p.attemptIndex + 1 }
  (decide ((q.attemptIndex : ℚ) ≤ q.cfg.maxRetries + 1), q)

/-- Modelled from the spec: the conversion of a delay in seconds to the
`time.Duration` that `Delay` returns: whole nanoseconds, rounded toward zero. -/
def nanoseconds (s : ℚ) : Duration :=
  if 0 ≤ s then ⌊s * 1000000000⌋ else ⌈s * 1000000000⌉

/-- Modelled from the spec: the delay in seconds that a non-terminal `Delay` computes
from the draw `u` (section 4.1). On the very first non-terminal call, when
`previousDelay` is 0, the candidate is `baseDelay` scaled by the draw (the edge policy).
On a later call `span = max(baseDelay, previousDelay * 3)` and
`candidate = baseDelay + uniform(0,1) * (span - baseDelay)`. In both cases
`delay = min(candidate, maxDelay)`. -/
def DecorrJitter.jitter (p : DecorrJitter) (u : ℚ) : ℚ :=
  let baseDelay := p.cfg.multiplierSeconds
  let span := max baseDelay (p.previousDelay * 3)
  let candidate :=
    if p.previousDelay = 0 then u * baseDelay
    else baseDelay + u * (span - baseDelay)
  min candidate p.cfg.maxWaitSeconds

/-- Modelled from the spec: method `Delay` of the missing `decorr_jitter.go`
(section 4.1). When the current attempt is the last permitted one the delay is zero and
nothing else happens. Otherwise a value is drawn, the delay of the recurrence is
computed from it, `previousDelay = delay`, and `delay` is returned. -/
def DecorrJitter.Delay (p : DecorrJitter) : Duration × DecorrJitter :=
  if p.cfg.maxRetries + 1 ≤ (p.attemptIndex : ℚ) then (0, p)
  else
    let ug := p.randomSource.Float64
    let delay := DecorrJitter.jitter p ug.1
    (nanoseconds delay, { p with previousDelay := delay, randomSource := ug.2 })

/-- Modelled from the spec: method `Reset` of the missing `decorr_jitter.go`
(section 4.1): returns `attemptIndex` and `previousDelay` to 0 and leaves the random
source untouched. -/
def DecorrJitter.Reset (p : DecorrJitter) : DecorrJitter :=
  { p with attemptIndex := 0, previousDelay := 0 }

/-- Modelled from the spec: the policy as a `Retryer`, in a world made of the policy
and the state `ω` of the other collaborators. -/
def DecorrJitter.retryer (ω : Type) : Retryer (DecorrJitter × ω) where
  Next w := ((DecorrJitter.Next w.1).1, ((DecorrJitter.Next w.1).2, w.2))
  Delay w := ((DecorrJitter.Delay w.1).1, ((DecorrJitter.Delay w.1).2, w.2))
  Reset w := (DecorrJitter.Reset w.1, w.2)

/-- A call of a method of the policy. -/
inductive Op where
  /-- Call of `Next`. -/
  | next
  /-- Call of `Delay`. -/
  | delay
  /-- Call of `Reset`. -/
  | reset
  deriving DecidableEq, Repr

/-- What a call of a method of the policy returns. -/
inductive Out where
  /-- Result of `Next`. -/
  | ok (b : Bool)
  /-- Result of `Delay`. -/
  | wait (d : Duration)
  /-- Nothing: `Reset`. -/
  | unit
  deriving DecidableEq, Repr

/-- One call of a method: what it returns and the policy after it. -/
def DecorrJitter.call (p : DecorrJitter) : Op → Out × DecorrJitter
  | Op.next => (Out.ok (DecorrJitter.Next p).1, (DecorrJitter.Next p).2)
  | Op.delay => (Out.wait (DecorrJitter.Delay p).1, (DecorrJitter.Delay p).2)
  | Op.reset => (Out.unit, DecorrJitter.Reset p)

/-- The policy after a sequence of calls. -/
def DecorrJitter.exec (p : DecorrJitter) : List Op → DecorrJitter
  | [] => p
  | op :: ops => DecorrJitter.exec (DecorrJitter.call p op).2 ops

/-- What a sequence of calls returns, call by call. -/
def DecorrJitter.outs (p : DecorrJitter) : List Op → List Out
  | [] => []
  | op :: ops => (DecorrJitter.call p op).1 :: DecorrJitter.outs (DecorrJitter.call p op).2 ops

/-- The policy after `j` rounds of the protocol, one `Delay` per `Next`. -/
def DecorrJitter.rounds (p : DecorrJitter) : Nat → DecorrJitter
  | 0 => p
  | j + 1 => (DecorrJitter.Delay (DecorrJitter.Next (DecorrJitter.rounds p j)).2).2

/-! ## The configuration in the words of the specification -/

/-- The settings as a list of options, in order. -/
def options (ss : List Setting) : List Option := ss.map Setting.option

/-- The retry budget a list of settings gives (section 6): the argument of the last
`WithMaxRetries` as the `float64` it is stored as, the default 10 when that argument is
negative or when there is no `WithMaxRetries`. -/
def retryBudget (ss : List Setting) : Nat :=
  ss.foldl (fun b s =>
    match s with
    | Setting.maxRetries n => if n < 0 then 10 else (float64Int n).toNat
    | _ => b) 10

/-- The random source a list of settings injects: the argument of the last `WithRand`,
nil when there is none. -/
def injected (ss : List Setting) : Ptr Rand :=
  ss.foldl (fun r s =>
    match s with
    | Setting.rand g => g
    | _ => r) none

/-- The delay cap a list of settings asks for (section 6): the argument of the last
`WithMaxWait`, the default 20 s when that argument is not positive or when there is no
`WithMaxWait`. -/
def maxDelay (ss : List Setting) : Duration :=
  ss.foldl (fun b s =>
    match s with
    | Setting.maxWait d => if d ≤ 0 then 20 * Second else d
    | _ => b) (20 * Second)

/-- The base delay a list of settings asks for (section 6): the argument of the last
`WithMultiplier`, the default 25 ms when that argument is not positive or when there is
no `WithMultiplier`. -/
def baseDelay (ss : List Setting) : Duration :=
  ss.foldl (fun b s =>
    match s with
    | Setting.multiplier d => if d ≤ 0 then 25 * Millisecond else d
    | _ => b) (25 * Millisecond)

/-- Two random sources yield the same sequence of values from now on. -/
def Rand.Same (g h : Rand) : Prop :=
  ∀ n, g.seq (g.pos + n) = h.seq (h.pos + n)

/-- Two settings have the same option values: the same numbers, and random sources that
yield the same sequence of values. -/
def Setting.Same : Setting → Setting → Prop
  | Setting.rand none, Setting.rand none => True
  | Setting.rand (some g), Setting.rand (some h) => Rand.Same g h
  | Setting.maxRetries n, Setting.maxRetries m => n = m
  | Setting.multiplier d, Setting.multiplier e => d = e
  | Setting.maxWait d, Setting.maxWait e => d = e
  | _, _ => False

/-- Two optional random sources are both absent, or both present and yield the same
sequence of values. -/
def Rand.SamePtr : Ptr Rand → Ptr Rand → Prop
  | none, none => True
  | some g, some h => Rand.Same g h
  | _, _ => False

/-- Two configurations agree on the numbers and on the values their random sources
yield. -/
def Config.Alike (c d : Config) : Prop :=
  Rand.SamePtr c.random d.random ∧ c.maxRetries = d.maxRetries ∧
    c.multiplierSeconds = d.multiplierSeconds ∧ c.maxWaitSeconds = d.maxWaitSeconds

/-- Two policies agree on everything a method reads, and their random sources yield the
same sequence of values. -/
def DecorrJitter.Alike (p q : DecorrJitter) : Prop :=
  p.cfg.maxRetries = q.cfg.maxRetries ∧
    p.cfg.multiplierSeconds = q.cfg.multiplierSeconds ∧
    p.cfg.maxWaitSeconds = q.cfg.maxWaitSeconds ∧
    p.attemptIndex = q.attemptIndex ∧ p.previousDelay = q.previousDelay ∧
    Rand.Same p.randomSource q.randomSource

/-- A configuration is valid when `maxRetries >= 0`, `multiplierSeconds > 0` and
`maxWaitSeconds > 0`. -/
def Config.Valid (c : Config) : Prop :=
  0 ≤ c.maxRetries ∧ 0 < c.multiplierSeconds ∧ 0 < c.maxWaitSeconds

/-- The zero value of `Config`: `Config{}`. -/
def zeroConfig : Config :=
  { random := none, maxRetries := 0, multiplierSeconds := 0, maxWaitSeconds := 0 }

/-- The fields of `Config`. -/
inductive Field where
  /-- Field `random`. -/
  | random
  /-- Field `maxRetries`. -/
  | maxRetries
  /-- Field `multiplierSeconds`. -/
  | multiplierSeconds
  /-- Field `maxWaitSeconds`. -/
  | maxWaitSeconds
  deriving DecidableEq, Repr

/-- The field the option of a setting is for. -/
def Setting.field : Setting → Field
  | Setting.rand _ => Field.random
  | Setting.maxRetries _ => Field.maxRetries
  | Setting.multiplier _ => Field.multiplierSeconds
  | Setting.maxWait _ => Field.maxWaitSeconds

/-! ## The protocol between `Run` and its collaborators -/

/-- The waits in a trace: the duration waited for, and whether the wait ended with the
cancellation. -/
def waits {ε : Type} : List (Event ε) → List (Duration × Bool)
  | [] => []
  | Event.timer d :: es => (d, false) :: waits es
  | Event.done d :: es => (d, true) :: waits es
  | _ :: es => waits es

/-- The traces of the strictly sequential protocol, from the `k`-th attempt on: `Next`,
then `f` with the attempt number `k` as an `int`, then, when `f` failed, `Delay`, then,
when the delay is positive, the wait, and then the same from attempt `k + 1`. The trace
ends after a `Next` that returned `false`, after a call of `f` that returned nil, or
after a wait that ended with the cancellation. -/
inductive Protocol {ε : Type} : Nat → List (Event ε) → Prop where
  /-- The retryer allows no further attempt. -/
  | stop (k : Nat) : Protocol k [Event.next false]
  /-- The attempt succeeds. -/
  | success (k : Nat) : Protocol k [Event.next true, Event.call (wrapInt k) none]
  /-- The attempt fails and the wait ends with the cancellation. -/
  | cancel (k : Nat) (e : ε) (d : Duration) (hd : 0 < d) :
      Protocol k [Event.next true, Event.call (wrapInt k) (some e), Event.delay d,
        Event.done d]
  /-- The attempt fails, the wait ends with the timer, and the protocol goes on. -/
  | wait (k : Nat) (e : ε) (d : Duration) (rest : List (Event ε)) (hd : 0 < d)
      (h : Protocol (k + 1) rest) :
      Protocol k (Event.next true :: Event.call (wrapInt k) (some e) :: Event.delay d ::
        Event.timer d :: rest)
  /-- The attempt fails, there is nothing to wait for, and the protocol goes on. -/
  | skip (k : Nat) (e : ε) (d : Duration) (rest : List (Event ε)) (hd : ¬ 0 < d)
      (h : Protocol (k + 1) rest) :
      Protocol k (Event.next true :: Event.call (wrapInt k) (some e) :: Event.delay d ::
        rest)

/-! ## Concrete collaborators

Small retryers, work functions and contexts on which the theorems are instantiated. -/

/-- A retryer over a counter of `Next` calls: `Next` allows `n` attempts, `Delay` is
always `d`. -/
def budget (n : Nat) (d : Duration) : Retryer Nat where
  Next w := (decide (w < n), w + 1)
  Delay w := (d, w)
  Reset _ := 0

/-- A work function that always fails, with its attempt number as the error. -/
def failing {W : Type} : Work W Int := fun i w => (some i, w)

/-- A work function that succeeds on attempt `k` and fails on every other attempt, with
the attempt number as the error. -/
def succeedsOn {W : Type} (k : Int) : Work W Int := fun i w =>
  (if i = k then none else some i, w)

/-- A context that is never cancelled: every wait ends with the timer. -/
def background {W : Type} : Context W := fun _ w => (false, w)

/-- A context that is already cancelled: every wait ends with `ctx.Done()`. -/
def cancelled {W : Type} : Context W := fun _ w => (true, w)

/-- A context that is cancelled during the `k`-th wait (counted from 0) of a world that
counts the calls of `Next`: the waits before it end with the timer. -/
def cancelledAfter (k : Nat) : Context Nat := fun _ w => (decide (k < w), w)

/-- A random source that yields `u` forever, `k` values having been drawn. -/
def steady (u : ℚ) (h0 : 0 ≤ u) (h1 : u < 1) (k : Nat) : Rand :=
  { seq := fun _ => u, pos := k, unit := fun _ => ⟨h0, h1⟩ }

/-- A random source that yields `1/2` forever. -/
def halves (k : Nat) : Rand := steady (1 / 2) (by norm_num) (by norm_num) k

/-- A random source that yields `0` forever. -/
def zeros (k : Nat) : Rand := steady 0 (le_refl 0) (by norm_num) k

/-- Test `TestDecorrJitter`, case `retry=neg mult=neg wait=neg`: the delays the test
expects of a policy with the default 10 retries, base delay of 25 ms and cap of 20 s, in
nanoseconds. -/
def TestDecorrJitter.want : List Duration :=
  [24836055, 43187692, 44866499, 80371002, 190064473, 536390311, 276211616, 1351602683,
    2341613026, 6374037452, 0]

/-! ## Lemmas on `wrapInt` and on traces -/

theorem wrapInt_of_lt (x : Int) (h0 : -9223372036854775808 ≤ x)
    (h1 : x < 9223372036854775808) : wrapInt x = x := by
  unfold wrapInt
  omega

theorem wrapInt_wrapInt_add_one (x : Int) : wrapInt (wrapInt x + 1) = wrapInt (x + 1) := by
  unfold wrapInt
  omega

theorem calls_append {ε : Type} (a b : List (Event ε)) :
    calls (a ++ b) = calls a ++ calls b := by
  induction a with
  | nil => rfl
  | cons e es ih => cases e <;> simp [calls, ih]

theorem delays_append {ε : Type} (a b : List (Event ε)) :
    delays (a ++ b) = delays a ++ delays b := by
  induction a with
  | nil => rfl
  | cons e es ih => cases e <;> simp [delays, ih]

theorem nexts_append {ε : Type} (a b : List (Event ε)) :
    nexts (a ++ b) = nexts a ++ nexts b := by
  induction a with
  | nil => rfl
  | cons e es ih => cases e <;> simp [nexts, ih]

theorem Result.after_nil {ε : Type} (res : Result ε) : Result.after [] res = res := rfl

theorem Result.after_after {ε : Type} (a b : List (Event ε)) (res : Result ε) :
    Result.after a (Result.after b res) = Result.after (a ++ b) res := by
  simp [Result.after]

/-! ## Lemmas on the loop of `Run` -/

section
variable {W ε : Type} (ctx : Context W) (r : Retryer W) (f : Work W ε)

/-- The loop, one evaluation of the loop condition unfolded, in terms of the components
of what the collaborators return. -/
theorem loop_eq (fuel : Nat) (i : Int) (err : error ε) (w : W) :
    Run.loop ctx r f (fuel + 1) i err w =
      if (r.Next w).1 = true then
        match (f i (r.Next w).2).1 with
        | none => some { err := none, trace := [Event.next true, Event.call i none] }
        | some e =>
          if 0 < (r.Delay (f i (r.Next w).2).2).1 then
            if (ctx (r.Delay (f i (r.Next w).2).2).1 (r.Delay (f i (r.Next w).2).2).2).1
                = true then
              some { err := some e,
                     trace := [Event.next true, Event.call i (some e),
                               Event.delay (r.Delay (f i (r.Next w).2).2).1,
                               Event.done (r.Delay (f i (r.Next w).2).2).1] }
            else
              (Run.loop ctx r f fuel (wrapInt (i + 1)) (some e)
                (ctx (r.Delay (f i (r.Next w).2).2).1
                  (r.Delay (f i (r.Next w).2).2).2).2).map
                (Result.after [Event.next true, Event.call i (some e),
                               Event.delay (r.Delay (f i (r.Next w).2).2).1,
                               Event.timer (r.Delay (f i (r.Next w).2).2).1])
          else
            (Run.loop ctx r f fuel (wrapInt (i + 1)) (some e)
              (r.Delay (f i (r.Next w).2).2).2).map
              (Result.after [Event.next true, Event.call i (some e),
                             Event.delay (r.Delay (f i (r.Next w).2).2).1])
      else some { err := err, trace := [Event.next false] } := by
  rw [Run.loop]
  rcases hn : r.Next w with ⟨b, w1⟩
  cases b with
  | false => simp
  | true =>
    rcases hf : f i w1 with ⟨e, w2⟩
    cases e with
    | none => simp [hf]
    | some e =>
      rcases hd : r.Delay w2 with ⟨d, w3⟩
      by_cases hpos : 0 < d
      · rcases hc : ctx d w3 with ⟨c, w4⟩
        cases c <;> simp [hf, hd, hpos, hc]
      · simp [hf, hd, hpos]

/-- More fuel does not change a result. -/
theorem loop_succ (fuel : Nat) : ∀ (i : Int) (err : error ε) (w : W) (out : Result ε),
    Run.loop ctx r f fuel i err w = some out →
    Run.loop ctx r f (fuel + 1) i err w = some out := by
  induction fuel with
  | zero => intro i err w out h; simp [Run.loop] at h
  | succ n ih =>
    intro i err w out h
    rw [loop_eq] at h ⊢
    by_cases hN : (r.Next w).1 = true
    · rw [if_pos hN] at h ⊢
      rcases hf : (f i (r.Next w).2).1 with _ | e
      · rw [hf] at h; exact h
      · rw [hf] at h
        simp only at h ⊢
        by_cases hpos : 0 < (r.Delay (f i (r.Next w).2).2).1
        · rw [if_pos hpos] at h ⊢
          by_cases hc : (ctx (r.Delay (f i (r.Next w).2).2).1
              (r.Delay (f i (r.Next w).2).2).2).1 = true
          · rw [if_pos hc] at h ⊢; exact h
          · rw [if_neg hc] at h ⊢
            rcases hl : Run.loop ctx r f n (wrapInt (i + 1)) (some e)
                (ctx (r.Delay (f i (r.Next w).2).2).1
                  (r.Delay (f i (r.Next w).2).2).2).2 with _ | res
            · rw [hl] at h; simp at h
            · rw [hl] at h; rw [ih _ _ _ _ hl]; exact h
        · rw [if_neg hpos] at h ⊢
          rcases hl : Run.loop ctx r f n (wrapInt (i + 1)) (some e)
              (r.Delay (f i (r.Next w).2).2).2 with _ | res
          · rw [hl] at h; simp at h
          · rw [hl] at h; rw [ih _ _ _ _ hl]; exact h
    · rw [if_neg hN] at h ⊢
      exact h

theorem loop_le {fuel fuel' : Nat} (hle : fuel ≤ fuel') (i : Int) (err : error ε) (w : W)
    (out : Result ε) (h : Run.loop ctx r f fuel i err w = some out) :
    Run.loop ctx r f fuel' i err w = some out := by
  induction hle with
  | refl => exact h
  | step _ ih => exact loop_succ ctx r f _ i err w out ih

/-- One pass in which `f` fails and the wait is not cancelled. -/
theorem loop_pass (fuel : Nat) (i : Int) (err : error ε) (w : W)
    (hN : (r.Next w).1 = true) (hF : (f i (r.Next w).2).1 ≠ none)
    (hC : cancels ctx r f i w = false) :
    Run.loop ctx r f (fuel + 1) i err w =
      (Run.loop ctx r f fuel (wrapInt (i + 1)) (f i (r.Next w).2).1 (pass ctx r f i w)).map
        (Result.after (passEvents r f i w)) := by
  rw [loop_eq, if_pos hN]
  rcases hf : (f i (r.Next w).2).1 with _ | e
  · exact absurd hf hF
  · simp only [cancels] at hC
    simp only [pass, passEvents, hf]
    by_cases hpos : 0 < (r.Delay (f i (r.Next w).2).2).1
    · simp only [hpos, decide_True, Bool.true_and] at hC
      simp [hpos, hC]
    · simp [hpos]

/-- A run of `n` passes that go round the loop. -/
theorem loop_passes (n : Nat) : ∀ (fuel : Nat) (p : Int × W) (err : error ε),
    (∀ j, j < n → Retries ctx r f (passes ctx r f j p)) →
    Run.loop ctx r f (n + fuel) p.1 err p.2 =
      (Run.loop ctx r f fuel (passes ctx r f n p).1 (passesErr ctx r f n p err)
        (passes ctx r f n p).2).map (Result.after (passesEvents ctx r f n p)) := by
  induction n with
  | zero =>
    intro fuel p err _
    simp only [passes, passesErr, passesEvents, Nat.zero_add]
    rcases Run.loop ctx r f fuel p.1 err p.2 with _ | res
    · rfl
    · simp [Result.after]
  | succ n ih =>
    intro fuel p err h
    have h0 := h 0 (Nat.succ_pos n)
    have e1 : n + 1 + fuel = (n + fuel) + 1 := by omega
    rw [e1, loop_pass ctx r f (n + fuel) p.1 err p.2 h0.1 h0.2.1 h0.2.2]
    rw [ih fuel (wrapInt (p.1 + 1), pass ctx r f p.1 p.2) _
      (fun j hj => h (j + 1) (Nat.succ_lt_succ hj))]
    simp only [passes, passesErr, passesEvents, Option.map_map]
    congr 1
    funext res
    simp [Function.comp, Result.after_after]

end

section
variable {W ε : Type} (ctx : Context W) (r : Retryer W) (f : Work W ε)

theorem calls_passEvents (i : Int) (w : W) :
    calls (passEvents r f i w) = [(i, (f i (r.Next w).2).1)] := by
  unfold passEvents
  by_cases h : 0 < (r.Delay (f i (r.Next w).2).2).1 <;> simp [h, calls]

theorem delays_passEvents (i : Int) (w : W) :
    delays (passEvents r f i w) = [(r.Delay (f i (r.Next w).2).2).1] := by
  unfold passEvents
  by_cases h : 0 < (r.Delay (f i (r.Next w).2).2).1 <;> simp [h, delays]

theorem nexts_passEvents (i : Int) (w : W) :
    nexts (passEvents r f i w) = [true] := by
  unfold passEvents
  by_cases h : 0 < (r.Delay (f i (r.Next w).2).2).1 <;> simp [h, nexts]

theorem calls_passesEvents (n : Nat) : ∀ p : Int × W,
    calls (passesEvents ctx r f n p) =
      (List.range n).map (fun j =>
        ((passes ctx r f j p).1,
          (f (passes ctx r f j p).1 (r.Next (passes ctx r f j p).2).2).1)) := by
  induction n with
  | zero => intro p; rfl
  | succ n ih =>
    intro p
    rw [passesEvents, calls_append, calls_passEvents, ih, List.range_succ_eq_map]
    simp [passes, Function.comp]

theorem delays_passesEvents (n : Nat) : ∀ p : Int × W,
    (delays (passesEvents ctx r f n p)).length = n := by
  induction n with
  | zero => intro p; rfl
  | succ n ih =>
    intro p
    rw [passesEvents, delays_append, delays_passEvents, List.length_append, ih]
    simp [Nat.add_comm]

theorem nexts_passesEvents (n : Nat) : ∀ p : Int × W,
    nexts (passesEvents ctx r f n p) = List.replicate n true := by
  induction n with
  | zero => intro p; rfl
  | succ n ih =>
    intro p
    rw [passesEvents, nexts_append, nexts_passEvents, ih]
    rfl

theorem passes_succ (n : Nat) : ∀ p : Int × W,
    passes ctx r f (n + 1) p =
      (wrapInt ((passes ctx r f n p).1 + 1),
        pass ctx r f (passes ctx r f n p).1 (passes ctx r f n p).2) := by
  induction n with
  | zero => intro p; rfl
  | succ n ih => intro p; rw [passes, ih]; rfl

theorem passesErr_succ (n : Nat) : ∀ (p : Int × W) (err : error ε),
    passesErr ctx r f (n + 1) p err =
      (f (passes ctx r f n p).1 (r.Next (passes ctx r f n p).2).2).1 := by
  induction n with
  | zero => intro p err; rfl
  | succ n ih => intro p err; rw [passesErr, ih]; rfl

/-- The loop counter at the loop condition after `j` passes, from 1. -/
theorem passes_counter (j : Nat) (w : W) :
    (passes ctx r f j (1, w)).1 = wrapInt ((j : Int) + 1) := by
  induction j with
  | zero => simp [passes, wrapInt]
  | succ n ih =>
    rw [passes_succ]
    simp only
    rw [ih, wrapInt_wrapInt_add_one]
    push_cast
    rfl

/-- The value the loop returns is the value of the last call of `f`, or the incoming
`err` when `f` was not called. -/
theorem loop_err (fuel : Nat) : ∀ (i : Int) (err : error ε) (w : W) (out : Result ε),
    Run.loop ctx r f fuel i err w = some out →
    out.err = ((calls out.trace).getLast?.map Prod.snd).getD err := by
  induction fuel with
  | zero => intro i err w out h; simp [Run.loop] at h
  | succ n ih =>
    intro i err w out h
    rw [loop_eq] at h
    by_cases hN : (r.Next w).1 = true
    · rw [if_pos hN] at h
      rcases hf : (f i (r.Next w).2).1 with _ | e
      · rw [hf] at h
        simp only [Option.some.injEq] at h
        subst h
        simp [calls]
      · rw [hf] at h
        simp only at h
        by_cases hpos : 0 < (r.Delay (f i (r.Next w).2).2).1
        · rw [if_pos hpos] at h
          by_cases hc : (ctx (r.Delay (f i (r.Next w).2).2).1
              (r.Delay (f i (r.Next w).2).2).2).1 = true
          · rw [if_pos hc] at h
            simp only [Option.some.injEq] at h
            subst h
            simp [calls]
          · rw [if_neg hc] at h
            rcases hl : Run.loop ctx r f n (wrapInt (i + 1)) (some e)
                (ctx (r.Delay (f i (r.Next w).2).2).1
                  (r.Delay (f i (r.Next w).2).2).2).2 with _ | res
            · rw [hl] at h; simp at h
            · rw [hl] at h
              simp only [Option.map_some', Option.some.injEq] at h
              subst h
              have := ih _ _ _ _ hl
              simp only [Result.after, calls, List.cons_append, List.nil_append,
                List.getLast?_cons, this]
              rcases hg : (calls res.trace).getLast? with _ | c <;> simp [hg]
        · rw [if_neg hpos] at h
          rcases hl : Run.loop ctx r f n (wrapInt (i + 1)) (some e)
              (r.Delay (f i (r.Next w).2).2).2 with _ | res
          · rw [hl] at h; simp at h
          · rw [hl] at h
            simp only [Option.map_some', Option.some.injEq] at h
            subst h
            have := ih _ _ _ _ hl
            simp only [Result.after, calls, List.cons_append, List.nil_append,
              List.getLast?_cons, this]
            rcases hg : (calls res.trace).getLast? with _ | c <;> simp [hg]
    · rw [if_neg hN] at h
      simp only [Option.some.injEq] at h
      subst h
      simp [calls]

/-- When the loop makes no call of `f`, its trace is the single `Next` that returned
`false`. -/
theorem loop_no_calls (fuel : Nat) (i : Int) (err : error ε) (w : W) (out : Result ε)
    (h : Run.loop ctx r f fuel i err w = some out) (hc : calls out.trace = []) :
    out.trace = [Event.next false] := by
  cases fuel with
  | zero => simp [Run.loop] at h
  | succ n =>
    rw [loop_eq] at h
    by_cases hN : (r.Next w).1 = true
    · rw [if_pos hN] at h
      rcases hf : (f i (r.Next w).2).1 with _ | e
      · rw [hf] at h
        simp only [Option.some.injEq] at h
        subst h
        simp [calls] at hc
      · rw [hf] at h
        simp only at h
        by_cases hpos : 0 < (r.Delay (f i (r.Next w).2).2).1
        · rw [if_pos hpos] at h
          by_cases hcan : (ctx (r.Delay (f i (r.Next w).2).2).1
              (r.Delay (f i (r.Next w).2).2).2).1 = true
          · rw [if_pos hcan] at h
            simp only [Option.some.injEq] at h
            subst h
            simp [calls] at hc
          · rw [if_neg hcan] at h
            rcases hl : Run.loop ctx r f n (wrapInt (i + 1)) (some e)
                (ctx (r.Delay (f i (r.Next w).2).2).1
                  (r.Delay (f i (r.Next w).2).2).2).2 with _ | res
            · rw [hl] at h; simp at h
            · rw [hl] at h
              simp only [Option.map_some', Option.some.injEq] at h
              subst h
              simp [Result.after, calls] at hc
        · rw [if_neg hpos] at h
          rcases hl : Run.loop ctx r f n (wrapInt (i + 1)) (some e)
              (r.Delay (f i (r.Next w).2).2).2 with _ | res
          · rw [hl] at h; simp at h
          · rw [hl] at h
            simp only [Option.map_some', Option.some.injEq] at h
            subst h
            simp [Result.after, calls] at hc
    · rw [if_neg hN] at h
      simp only [Option.some.injEq] at h
      subst h
      rfl

end

section
variable {W ε : Type} (ctx : Context W) (r : Retryer W) (f : Work W ε)

/-- After `m` passes that go round the loop, `Next` returns `false`. -/
theorem loop_passes_stop (m k : Nat) (p : Int × W) (err : error ε)
    (h : ∀ j, j < m → Retries ctx r f (passes ctx r f j p))
    (hstop : (r.Next (passes ctx r f m p).2).1 = false) :
    Run.loop ctx r f (m + (k + 1)) p.1 err p.2 =
      some { err := passesErr ctx r f m p err,
             trace := passesEvents ctx r f m p ++ [Event.next false] } := by
  rw [loop_passes ctx r f m (k + 1) p err h, loop_eq, if_neg (by simp [hstop])]
  rfl

/-- After `m` passes that go round the loop, `f` succeeds. -/
theorem loop_passes_success (m k : Nat) (p : Int × W) (err : error ε)
    (h : ∀ j, j < m → Retries ctx r f (passes ctx r f j p))
    (hnext : (r.Next (passes ctx r f m p).2).1 = true)
    (hsucc : (f (passes ctx r f m p).1 (r.Next (passes ctx r f m p).2).2).1 = none) :
    Run.loop ctx r f (m + (k + 1)) p.1 err p.2 =
      some { err := none,
             trace := passesEvents ctx r f m p ++
               [Event.next true, Event.call (passes ctx r f m p).1 none] } := by
  rw [loop_passes ctx r f m (k + 1) p err h, loop_eq, if_pos hnext, hsucc]
  rfl

/-- After `m` passes that go round the loop, the wait is cancelled. -/
theorem loop_passes_cancel (m k : Nat) (p : Int × W) (err : error ε) (e : ε)
    (h : ∀ j, j < m → Retries ctx r f (passes ctx r f j p))
    (hnext : (r.Next (passes ctx r f m p).2).1 = true)
    (hfail : (f (passes ctx r f m p).1 (r.Next (passes ctx r f m p).2).2).1 = some e)
    (hpos : 0 < (r.Delay (f (passes ctx r f m p).1
      (r.Next (passes ctx r f m p).2).2).2).1)
    (hdone : (ctx (r.Delay (f (passes ctx r f m p).1 (r.Next (passes ctx r f m p).2).2).2).1
      (r.Delay (f (passes ctx r f m p).1 (r.Next (passes ctx r f m p).2).2).2).2).1 = true) :
    Run.loop ctx r f (m + (k + 1)) p.1 err p.2 =
      some { err := some e,
             trace := passesEvents ctx r f m p ++
               [Event.next true, Event.call (passes ctx r f m p).1 (some e),
                Event.delay (r.Delay (f (passes ctx r f m p).1
                  (r.Next (passes ctx r f m p).2).2).2).1,
                Event.done (r.Delay (f (passes ctx r f m p).1
                  (r.Next (passes ctx r f m p).2).2).2).1] } := by
  rw [loop_passes ctx r f m (k + 1) p err h, loop_eq, if_pos hnext, hfail]
  simp only
  rw [if_pos hpos, if_pos hdone]
  rfl

end

/-! ## `Run`: what is returned -/

/-- C2: when `Run` returns and has invoked `f` at least once, the value it returns is the
value returned by the last invocation of `f`, whatever ended the loop; and an error that
`Run` returns is an error some invocation of `f` returned, never one made up for a
cancellation. -/
theorem Run_returns_last_result {W ε : Type} (fuel : Nat) (ctx : Context W)
    (r : Retryer W) (f : Work W ε) (w : W) (out : Result ε)
    (h : Run fuel ctx r f w = some out) (hcalls : calls out.trace ≠ []) :
    (∃ i, (calls out.trace).getLast? = some (i, out.err)) ∧
      (∀ e, out.err = some e → ∃ i, (i, some e) ∈ calls out.trace) := by
  have herr := loop_err ctx r f fuel 1 none w out h
  rcases hg : (calls out.trace).getLast? with _ | c
  · exact absurd (List.getLast?_eq_none_iff.mp hg) hcalls
  · rw [hg] at herr
    simp only [Option.map_some', Option.getD_some] at herr
    have hc : c = (c.1, out.err) := by rw [herr]
    refine ⟨⟨c.1, by rw [← hc]⟩, ?_⟩
    intro e he
    refine ⟨c.1, ?_⟩
    rw [← he, ← hc]
    exact List.mem_of_getLast?_eq_some hg

/-- C2, instantiated: a retryer that allows three attempts with a delay of 5 ns, a work
function that always fails, and a context already cancelled. The first wait is
interrupted and `Run` returns the error of attempt 1. -/
theorem Run_returns_last_result_witness :
    Run 1 cancelled (budget 3 5) failing 0 =
        some { err := some 1,
               trace := [Event.next true, Event.call 1 (some 1), Event.delay 5,
                         Event.done 5] } ∧
      ((∃ i, (calls [Event.next true, Event.call 1 (some (1 : Int)), Event.delay 5,
          Event.done 5]).getLast? = some (i, some 1)) ∧
        (∀ e, some (1 : Int) = some e → ∃ i, (i, some e) ∈
          calls [Event.next true, Event.call 1 (some (1 : Int)), Event.delay 5,
            Event.done 5])) :=
  ⟨by decide,
    Run_returns_last_result 1 cancelled (budget 3 5) failing 0
      { err := some 1,
        trace := [Event.next true, Event.call 1 (some 1), Event.delay 5, Event.done 5] }
      (by decide) (by decide)⟩

/-- C3: when the first `m` passes go round the loop (`Next` allows the attempt, `f` fails,
the wait is not cancelled) and then `Next` allows one more attempt on which `f` returns
nil, `Run` returns nil right after that call: `f` has been invoked exactly `m + 1` times,
every earlier invocation failed, and `Delay` has been called exactly `m` times. With
`m = 0`: when `f` succeeds on attempt 1, `Run` returns nil and `Delay` is never called,
whatever the retryer would allow afterwards. -/
theorem Run_success_short_circuit {W ε : Type} (ctx : Context W) (r : Retryer W)
    (f : Work W ε) (w : W) (m : Nat)
    (hround : ∀ j, j < m → Retries ctx r f (passes ctx r f j (1, w)))
    (hnext : (r.Next (passes ctx r f m (1, w)).2).1 = true)
    (hsucc : (f (passes ctx r f m (1, w)).1
      (r.Next (passes ctx r f m (1, w)).2).2).1 = none) :
    ∃ out : Result ε,
      (∀ fuel, m + 1 ≤ fuel → Run fuel ctx r f w = some out) ∧
      out.err = none ∧
      (calls out.trace).length = m + 1 ∧
      (calls out.trace).getLast? = some (wrapInt ((m : Int) + 1), none) ∧
      (∀ c ∈ (calls out.trace).dropLast, c.2 ≠ none) ∧
      (delays out.trace).length = m ∧
      out.trace.getLast? = some (Event.call (wrapInt ((m : Int) + 1)) none) := by
  refine ⟨{ err := none,
            trace := passesEvents ctx r f m (1, w) ++
              [Event.next true, Event.call (passes ctx r f m (1, w)).1 none] },
    ?_, rfl, ?_, ?_, ?_, ?_, ?_⟩
  · intro fuel hfuel
    obtain ⟨k, rfl⟩ : ∃ k, fuel = m + (k + 1) := ⟨fuel - (m + 1), by omega⟩
    exact loop_passes_success ctx r f m k (1, w) none hround hnext hsucc
  · simp [calls_append, calls_passesEvents, calls]
  · simp [calls_append, calls_passesEvents, calls, passes_counter]
  · intro c hc
    simp only [calls_append, calls_passesEvents, calls, List.dropLast_concat,
      List.mem_map, List.mem_range] at hc
    obtain ⟨j, hj, rfl⟩ := hc
    exact (hround j hj).2.1
  · simp [delays_append, delays_passesEvents, delays]
  · simp [passes_counter]

/-- C3, instantiated: the retryer allows five attempts with a delay of 7 ns, the context
is never cancelled and `f` first succeeds on attempt 3: `Run` returns nil after three
invocations of `f` and two calls of `Delay`. -/
theorem Run_success_short_circuit_witness :
    (∀ j, j < 2 →
      Retries background (budget 5 7) (succeedsOn 3)
        (passes background (budget 5 7) (succeedsOn 3) j (1, 0))) ∧
    ∃ out : Result Int,
      (∀ fuel, 2 + 1 ≤ fuel → Run fuel background (budget 5 7) (succeedsOn 3) 0 = some out) ∧
      out.err = none ∧
      (calls out.trace).length = 2 + 1 ∧
      (calls out.trace).getLast? = some (wrapInt ((2 : Nat) + 1), none) ∧
      (∀ c ∈ (calls out.trace).dropLast, c.2 ≠ none) ∧
      (delays out.trace).length = 2 ∧
      out.trace.getLast? = some (Event.call (wrapInt ((2 : Nat) + 1)) none) :=
  ⟨by intro j hj; interval_cases j <;> simp [Retries] <;> decide,
    Run_success_short_circuit background (budget 5 7) (succeedsOn 3) 0 2
      (by intro j hj; interval_cases j <;> simp [Retries] <;> decide)
      (by decide) (by decide)⟩

/-- C4: when the first `m` passes go round the loop and, on the next pass, `Next` allows
the attempt, `f` fails with `e`, `Delay` returns a positive duration and the
cancellation wins the wait, then `Run` returns `e`, the error of that attempt; `f` has
been invoked exactly `m + 1` times, `Next` has been called exactly `m + 1` times, and
the end of the wait is the last thing `Run` does. -/
theorem Run_cancelled_during_wait {W ε : Type} (ctx : Context W) (r : Retryer W)
    (f : Work W ε) (w : W) (m : Nat) (e : ε)
    (hround : ∀ j, j < m → Retries ctx r f (passes ctx r f j (1, w)))
    (hnext : (r.Next (passes ctx r f m (1, w)).2).1 = true)
    (hfail : (f (passes ctx r f m (1, w)).1
      (r.Next (passes ctx r f m (1, w)).2).2).1 = some e)
    (hpos : 0 < (r.Delay (f (passes ctx r f m (1, w)).1
      (r.Next (passes ctx r f m (1, w)).2).2).2).1)
    (hdone : (ctx
      (r.Delay (f (passes ctx r f m (1, w)).1 (r.Next (passes ctx r f m (1, w)).2).2).2).1
      (r.Delay (f (passes ctx r f m (1, w)).1 (r.Next (passes ctx r f m (1, w)).2).2).2).2).1
        = true) :
    ∃ out : Result ε,
      (∀ fuel, m + 1 ≤ fuel → Run fuel ctx r f w = some out) ∧
      out.err = some e ∧
      (calls out.trace).length = m + 1 ∧
      (calls out.trace).getLast? = some (wrapInt ((m : Int) + 1), some e) ∧
      (nexts out.trace).length = m + 1 ∧
      out.trace.getLast? = some (Event.done (r.Delay (f (passes ctx r f m (1, w)).1
        (r.Next (passes ctx r f m (1, w)).2).2).2).1) := by
  refine ⟨{ err := some e,
            trace := passesEvents ctx r f m (1, w) ++
              [Event.next true, Event.call (passes ctx r f m (1, w)).1 (some e),
               Event.delay (r.Delay (f (passes ctx r f m (1, w)).1
                 (r.Next (passes ctx r f m (1, w)).2).2).2).1,
               Event.done (r.Delay (f (passes ctx r f m (1, w)).1
                 (r.Next (passes ctx r f m (1, w)).2).2).2).1] },
    ?_, rfl, ?_, ?_, ?_, ?_⟩
  · intro fuel hfuel
    obtain ⟨k, rfl⟩ : ∃ k, fuel = m + (k + 1) := ⟨fuel - (m + 1), by omega⟩
    exact loop_passes_cancel ctx r f m k (1, w) none e hround hnext hfail hpos hdone
  · simp [calls_append, calls_passesEvents, calls]
  · simp [calls_append, calls_passesEvents, calls, passes_counter]
  · simp [nexts_append, nexts_passesEvents, nexts]
  · simp

/-- C4, instantiated: the retryer allows five attempts with a delay of 7 ns, `f` always
fails, and the context is cancelled during the wait that follows attempt 3. -/
theorem Run_cancelled_during_wait_witness :
    (∀ j, j < 2 →
      Retries (cancelledAfter 2) (budget 5 7) failing
        (passes (cancelledAfter 2) (budget 5 7) failing j (1, 0))) ∧
    ∃ out : Result Int,
      (∀ fuel, 2 + 1 ≤ fuel → Run fuel (cancelledAfter 2) (budget 5 7) failing 0 = some out) ∧
      out.err = some 3 ∧
      (calls out.trace).length = 2 + 1 ∧
      (calls out.trace).getLast? = some (wrapInt ((2 : Nat) + 1), some 3) ∧
      (nexts out.trace).length = 2 + 1 ∧
      out.trace.getLast? = some (Event.done 7) :=
  ⟨by intro j hj; interval_cases j <;> simp [Retries] <;> decide,
    Run_cancelled_during_wait (cancelledAfter 2) (budget 5 7) failing 0 2 3
      (by intro j hj; interval_cases j <;> simp [Retries] <;> decide)
      (by decide) (by decide) (by decide) (by decide)⟩

/-- C5, as stated, fails: a retryer whose first `Next` returns `false` makes `Run` return
nil although no invocation of `f` returned nil (there is none). -/
theorem Run_nil_without_success :
    ∃ out : Result Int,
      Run 1 background (budget 0 7) failing 0 = some out ∧ out.err = none ∧
        ¬ ∃ c, c ∈ calls out.trace ∧ c.2 = none :=
  ⟨{ err := none, trace := [Event.next false] }, by decide, rfl, by simp [calls]⟩

/-- C5, amended: when `Run` returns nil, either some invocation of `f` returned nil, or
`f` was never invoked because the first call of `Next` returned `false`. -/
theorem Run_nil_cases {W ε : Type} (fuel : Nat) (ctx : Context W) (r : Retryer W)
    (f : Work W ε) (w : W) (out : Result ε)
    (h : Run fuel ctx r f w = some out) (hnil : out.err = none) :
    (∃ c, c ∈ calls out.trace ∧ c.2 = none) ∨ out.trace = [Event.next false] := by
  have herr := loop_err ctx r f fuel 1 none w out h
  rcases hg : (calls out.trace).getLast? with _ | c
  · right
    exact loop_no_calls ctx r f fuel 1 none w out h (List.getLast?_eq_none_iff.mp hg)
  · left
    rw [hg, hnil] at herr
    simp only [Option.map_some', Option.getD_some] at herr
    exact ⟨c, List.mem_of_getLast?_eq_some hg, herr.symm⟩

/-- C5 amended, instantiated: `f` succeeds on attempt 2. -/
theorem Run_nil_cases_witness :
    Run 2 background (budget 3 0) (succeedsOn 2) 0 =
        some { err := none,
               trace := [Event.next true, Event.call 1 (some 1), Event.delay 0,
                         Event.next true, Event.call 2 none] } ∧
      ((∃ c, c ∈ calls [Event.next true, Event.call 1 (some (1 : Int)), Event.delay 0,
          Event.next true, Event.call 2 none] ∧ c.2 = none) ∨
        [Event.next true, Event.call 1 (some (1 : Int)), Event.delay 0,
          Event.next true, Event.call 2 none] = [Event.next false]) :=
  ⟨by decide,
    Run_nil_cases 2 background (budget 3 0) (succeedsOn 2) 0
      { err := none,
        trace := [Event.next true, Event.call 1 (some 1), Event.delay 0,
                  Event.next true, Event.call 2 none] }
      (by decide) rfl⟩

/-! ## Lemmas on the conversion to `float64` -/

/-- An `int` of magnitude at most `2^53` is converted exactly. -/
theorem float64Int_small (n : Int) (h : n.natAbs ≤ 9007199254740992) : float64Int n = n := by
  unfold float64Int
  rw [if_pos h]

/-- The conversion keeps a non-negative `int` non-negative. -/
theorem float64Int_nonneg (n : Int) (h : 0 ≤ n) : 0 ≤ float64Int n := by
  unfold float64Int
  split
  · exact h
  · simp only [if_pos h]
    exact Int.natCast_nonneg _

theorem float64_small (n : Int) (h : n.natAbs ≤ 9007199254740992) : float64 n = (n : ℚ) := by
  unfold float64
  rw [float64Int_small n h]

theorem float64_nonneg (n : Int) (h : 0 ≤ n) : 0 ≤ float64 n := by
  unfold float64
  exact_mod_cast float64Int_nonneg n h

theorem float64_toNat (n : Int) (h : 0 ≤ n) : (((float64Int n).toNat : Nat) : ℚ) = float64 n := by
  unfold float64
  have e : (((float64Int n).toNat : Nat) : Int) = float64Int n :=
    Int.toNat_of_nonneg (float64Int_nonneg n h)
  rw [← Int.cast_natCast, e]

theorem float64_MaxRetries : float64 MaxRetries = 10 := by
  rw [float64_small MaxRetries (by decide)]
  simp [MaxRetries]

theorem log2_above : Nat.log2 9007199254740993 = 53 := by
  rw [Nat.log2_eq_log_two]
  exact (Nat.log_eq_iff (by norm_num)).mpr (by norm_num)

/-- The `int` `2^53 + 1` is converted to `2^53`. -/
theorem float64Int_above : float64Int 9007199254740993 = 9007199254740992 := by
  have h : ¬ (9007199254740993 : Int).natAbs ≤ 9007199254740992 := by decide
  unfold float64Int
  rw [if_neg h]
  have ha : (9007199254740993 : Int).natAbs = 9007199254740993 := rfl
  simp only [ha, log2_above]
  norm_num

/-! ## Lemmas on the configuration -/

/-- The configuration after a list of settings, from `c`. -/
theorem foldl_options_append (c : Config) (ss ts : List Setting) :
    (options (ss ++ ts)).foldl (fun c opt => opt c) c =
      (options ts).foldl (fun c opt => opt c) ((options ss).foldl (fun c opt => opt c) c) := by
  simp [options, List.foldl_append]

theorem foldl_options_cons (c : Config) (s : Setting) (ts : List Setting) :
    (options (s :: ts)).foldl (fun c opt => opt c) c =
      (options ts).foldl (fun c opt => opt c) (s.option c) := rfl

theorem maxRetries_foldl (ss : List Setting) : ∀ (c : Config) (b : Nat),
    c.maxRetries = (b : ℚ) →
    ((options ss).foldl (fun c opt => opt c) c).maxRetries =
      ((ss.foldl (fun b s =>
        match s with
        | Setting.maxRetries n => if n < 0 then 10 else (float64Int n).toNat
        | _ => b) b : Nat) : ℚ) := by
  induction ss with
  | nil => intro c b h; simpa [options] using h
  | cons s ts ih =>
    intro c b h
    rw [foldl_options_cons, List.foldl_cons]
    apply ih
    cases s with
    | rand g => simpa [Setting.option, WithRand] using h
    | maxRetries n =>
      by_cases hn : n < 0
      · simp [Setting.option, WithMaxRetries, hn, float64_MaxRetries]
      · have h0 : 0 ≤ n := not_lt.mp hn
        simp only [Setting.option, WithMaxRetries, hn, if_false]
        exact (float64_toNat n h0).symm
    | multiplier d =>
      by_cases hd : d ≤ 0 <;> simpa [Setting.option, WithMultiplier, hd] using h
    | maxWait d =>
      by_cases hd : d ≤ 0 <;> simpa [Setting.option, WithMaxWait, hd] using h

theorem maxWait_foldl (ss : List Setting) : ∀ (c : Config) (b : Duration),
    c.maxWaitSeconds = Duration.Seconds b →
    ((options ss).foldl (fun c opt => opt c) c).maxWaitSeconds =
      Duration.Seconds (ss.foldl (fun b s =>
        match s with
        | Setting.maxWait d => if d ≤ 0 then 20 * Second else d
        | _ => b) b) := by
  induction ss with
  | nil => intro c b h; simpa [options] using h
  | cons s ts ih =>
    intro c b h
    rw [foldl_options_cons, List.foldl_cons]
    apply ih
    cases s with
    | rand g => simpa [Setting.option, WithRand] using h
    | maxRetries n =>
      by_cases hn : n < 0 <;> simpa [Setting.option, WithMaxRetries, hn] using h
    | multiplier d =>
      by_cases hd : d ≤ 0 <;> simpa [Setting.option, WithMultiplier, hd] using h
    | maxWait d =>
      by_cases hd : d ≤ 0 <;> simp [Setting.option, WithMaxWait, hd, MaxWait]

theorem multiplier_foldl (ss : List Setting) : ∀ (c : Config) (b : Duration),
    c.multiplierSeconds = Duration.Seconds b →
    ((options ss).foldl (fun c opt => opt c) c).multiplierSeconds =
      Duration.Seconds (ss.foldl (fun b s =>
        match s with
        | Setting.multiplier d => if d ≤ 0 then 25 * Millisecond else d
        | _ => b) b) := by
  induction ss with
  | nil => intro c b h; simpa [options] using h
  | cons s ts ih =>
    intro c b h
    rw [foldl_options_cons, List.foldl_cons]
    apply ih
    cases s with
    | rand g => simpa [Setting.option, WithRand] using h
    | maxRetries n =>
      by_cases hn : n < 0 <;> simpa [Setting.option, WithMaxRetries, hn] using h
    | multiplier d =>
      by_cases hd : d ≤ 0 <;> simp [Setting.option, WithMultiplier, hd, Multiplier]
    | maxWait d =>
      by_cases hd : d ≤ 0 <;> simpa [Setting.option, WithMaxWait, hd] using h

theorem pos_foldl_maxWait (ss : List Setting) : ∀ b : Duration, 0 < b →
    0 < ss.foldl (fun b s =>
        match s with
        | Setting.maxWait d => if d ≤ 0 then 20 * Second else d
        | _ => b) b := by
  induction ss with
  | nil => intro b h; simpa using h
  | cons s ts ih =>
    intro b h
    rw [List.foldl_cons]
    apply ih
    cases s with
    | maxWait d =>
      by_cases hd : d ≤ 0
      · simp [hd, Second]
      · simp only [hd, if_false]; exact not_le.mp hd
    | _ => simpa using h

theorem pos_foldl_multiplier (ss : List Setting) : ∀ b : Duration, 0 < b →
    0 < ss.foldl (fun b s =>
        match s with
        | Setting.multiplier d => if d ≤ 0 then 25 * Millisecond else d
        | _ => b) b := by
  induction ss with
  | nil => intro b h; simpa using h
  | cons s ts ih =>
    intro b h
    rw [List.foldl_cons]
    apply ih
    cases s with
    | multiplier d =>
      by_cases hd : d ≤ 0
      · simp [hd, Millisecond]
      · simp only [hd, if_false]; exact not_le.mp hd
    | _ => simpa using h

/-- The configuration of a new policy, field by field, in the words of the
specification. -/
theorem cfg_NewDecorrJitter (seeded : Rand) (ss : List Setting) :
    (NewDecorrJitter seeded (options ss)).cfg.maxRetries = (retryBudget ss : ℚ) ∧
    (NewDecorrJitter seeded (options ss)).cfg.multiplierSeconds =
      Duration.Seconds (baseDelay ss) ∧
    (NewDecorrJitter seeded (options ss)).cfg.maxWaitSeconds =
      Duration.Seconds (maxDelay ss) := by
  refine ⟨?_, ?_, ?_⟩
  · exact maxRetries_foldl ss defaultConfig 10 (by simp [defaultConfig, float64_MaxRetries])
  · exact multiplier_foldl ss defaultConfig (25 * Millisecond)
      (by simp [defaultConfig, Multiplier])
  · exact maxWait_foldl ss defaultConfig (20 * Second) (by simp [defaultConfig, MaxWait])

theorem maxDelay_pos (ss : List Setting) : 0 < maxDelay ss :=
  pos_foldl_maxWait ss _ (by decide)

theorem baseDelay_pos (ss : List Setting) : 0 < baseDelay ss :=
  pos_foldl_multiplier ss _ (by decide)

/-! ## Lemmas on the decorrelated-jitter retryer -/

theorem Next_cfg (p : DecorrJitter) : (DecorrJitter.Next p).2.cfg = p.cfg := rfl

theorem Next_attemptIndex (p : DecorrJitter) :
    (DecorrJitter.Next p).2.attemptIndex = p.attemptIndex + 1 := rfl

theorem Next_result (p : DecorrJitter) :
    (DecorrJitter.Next p).1 = decide (((p.attemptIndex + 1 : Nat) : ℚ) ≤ p.cfg.maxRetries + 1) :=
  rfl

theorem Delay_cfg (p : DecorrJitter) : (DecorrJitter.Delay p).2.cfg = p.cfg := by
  unfold DecorrJitter.Delay
  split <;> rfl

theorem Delay_attemptIndex (p : DecorrJitter) :
    (DecorrJitter.Delay p).2.attemptIndex = p.attemptIndex := by
  unfold DecorrJitter.Delay
  split <;> rfl

/-- On the last permitted attempt `Delay` returns zero and leaves the policy as it is. -/
theorem Delay_terminal (p : DecorrJitter)
    (h : p.cfg.maxRetries + 1 ≤ (p.attemptIndex : ℚ)) :
    DecorrJitter.Delay p = (0, p) := by
  unfold DecorrJitter.Delay
  rw [if_pos h]

/-- Before the last permitted attempt `Delay` draws a value and applies the
recurrence. -/
theorem Delay_active (p : DecorrJitter)
    (h : ¬ p.cfg.maxRetries + 1 ≤ (p.attemptIndex : ℚ)) :
    DecorrJitter.Delay p =
      (nanoseconds (DecorrJitter.jitter p (Rand.Float64 p.randomSource).1),
        { p with
          previousDelay := DecorrJitter.jitter p (Rand.Float64 p.randomSource).1
          randomSource := (Rand.Float64 p.randomSource).2 }) := by
  unfold DecorrJitter.Delay
  rw [if_neg h]

/-- The delay in seconds that a non-terminal `Delay` computes is not negative and is at
most the cap, when base delay and cap are not negative. -/
theorem jitter_bounds (p : DecorrJitter) (u : ℚ) (hu : 0 ≤ u)
    (hb : 0 ≤ p.cfg.multiplierSeconds) (hc : 0 ≤ p.cfg.maxWaitSeconds) :
    0 ≤ DecorrJitter.jitter p u ∧ DecorrJitter.jitter p u ≤ p.cfg.maxWaitSeconds := by
  unfold DecorrJitter.jitter
  refine ⟨le_min ?_ hc, min_le_right _ _⟩
  have h1 : 0 ≤ max p.cfg.multiplierSeconds (p.previousDelay * 3) - p.cfg.multiplierSeconds :=
    sub_nonneg.mpr (le_max_left _ _)
  split
  · exact mul_nonneg hu hb
  · exact add_nonneg hb (mul_nonneg hu h1)

theorem nanoseconds_bounds (s : ℚ) (lo hi : Int) (h0 : 0 ≤ lo)
    (hlo : Duration.Seconds lo ≤ s) (hhi : s ≤ Duration.Seconds hi) :
    lo ≤ nanoseconds s ∧ nanoseconds s ≤ hi := by
  unfold Duration.Seconds at hlo hhi
  have hlo0 : (0 : ℚ) ≤ (lo : ℚ) := by exact_mod_cast h0
  have hs : 0 ≤ s := le_trans (div_nonneg hlo0 (by norm_num)) hlo
  have e1 : (lo : ℚ) ≤ s * 1000000000 := by
    have := (div_le_iff₀ (by norm_num : (0 : ℚ) < 1000000000)).mp hlo
    exact this
  have e2 : s * 1000000000 ≤ (hi : ℚ) := by
    have := (le_div_iff₀ (by norm_num : (0 : ℚ) < 1000000000)).mp hhi
    exact this
  unfold nanoseconds
  rw [if_pos hs]
  constructor
  · exact Int.le_floor.mpr e1
  · have := Int.floor_mono e2
    rwa [Int.floor_intCast] at this

theorem Seconds_nonneg (d : Duration) (h : 0 ≤ d) : 0 ≤ Duration.Seconds d := by
  unfold Duration.Seconds
  exact div_nonneg (by exact_mod_cast h) (by norm_num)

/-- Bounds on what `Delay` returns, for a policy whose base delay is `B` and whose cap is
`D`, both positive. -/
theorem Delay_bounds (p : DecorrJitter) (B D : Duration) (hB : 0 < B) (hD : 0 < D)
    (hb : p.cfg.multiplierSeconds = Duration.Seconds B)
    (hd : p.cfg.maxWaitSeconds = Duration.Seconds D) :
    0 ≤ (DecorrJitter.Delay p).1 ∧ (DecorrJitter.Delay p).1 ≤ D := by
  by_cases ht : p.cfg.maxRetries + 1 ≤ (p.attemptIndex : ℚ)
  · rw [Delay_terminal p ht]
    exact ⟨le_rfl, le_of_lt hD⟩
  · have hc := jitter_bounds p (Rand.Float64 p.randomSource).1
      (p.randomSource.unit p.randomSource.pos).1
      (hb ▸ Seconds_nonneg B (le_of_lt hB)) (hd ▸ Seconds_nonneg D (le_of_lt hD))
    have h0 : Duration.Seconds 0 ≤ DecorrJitter.jitter p (Rand.Float64 p.randomSource).1 := by
      simpa [Duration.Seconds] using hc.1
    have hn := nanoseconds_bounds (DecorrJitter.jitter p (Rand.Float64 p.randomSource).1)
      0 D le_rfl h0 (hd ▸ hc.2)
    rw [Delay_active p ht]
    exact hn

theorem call_cfg (p : DecorrJitter) (op : Op) : (DecorrJitter.call p op).2.cfg = p.cfg := by
  cases op
  · rfl
  · exact Delay_cfg p
  · rfl

theorem exec_cfg (ops : List Op) : ∀ p : DecorrJitter, (DecorrJitter.exec p ops).cfg = p.cfg := by
  induction ops with
  | nil => intro p; rfl
  | cons op ops ih => intro p; rw [DecorrJitter.exec, ih, call_cfg]

/-- Without `Reset`, the counter counts the calls of `Next`. -/
theorem exec_attemptIndex (ops : List Op) : ∀ p : DecorrJitter, Op.reset ∉ ops →
    (DecorrJitter.exec p ops).attemptIndex = p.attemptIndex + ops.count Op.next := by
  induction ops with
  | nil => intro p _; rfl
  | cons op ops ih =>
    intro p h
    have h1 : Op.reset ∉ ops := fun hm => h (List.mem_cons_of_mem _ hm)
    rw [DecorrJitter.exec, ih _ h1]
    cases op with
    | next => simp [DecorrJitter.call, Next_attemptIndex]; omega
    | delay => simp [DecorrJitter.call, Delay_attemptIndex]
    | reset => exact absurd (List.mem_cons_self _ _) h

theorem rounds_cfg (p : DecorrJitter) (j : Nat) : (DecorrJitter.rounds p j).cfg = p.cfg := by
  induction j with
  | zero => rfl
  | succ n ih => rw [DecorrJitter.rounds, Delay_cfg, Next_cfg, ih]

theorem rounds_attemptIndex (p : DecorrJitter) (j : Nat) :
    (DecorrJitter.rounds p j).attemptIndex = p.attemptIndex + j := by
  induction j with
  | zero => rfl
  | succ n ih => rw [DecorrJitter.rounds, Delay_attemptIndex, Next_attemptIndex, ih]; omega

theorem NewDecorrJitter_attemptIndex (seeded : Rand) (opts : List Option) :
    (NewDecorrJitter seeded opts).attemptIndex = 0 := rfl

/-- In protocol order, the `(j+1)`-th `Next` of a policy whose retry budget is `m` and
whose counter is 0 returns `true` exactly when `j ≤ m`. -/
theorem Next_rounds (p : DecorrJitter) (m : Nat) (hm : p.cfg.maxRetries = (m : ℚ))
    (h0 : p.attemptIndex = 0) (j : Nat) :
    (DecorrJitter.Next (DecorrJitter.rounds p j)).1 = decide (j ≤ m) := by
  rw [Next_result, rounds_cfg, rounds_attemptIndex, hm, h0]
  have : (((0 + j + 1 : Nat) : ℚ) ≤ (m : ℚ) + 1) ↔ j ≤ m := by
    rw [show ((m : ℚ) + 1) = ((m + 1 : Nat) : ℚ) by push_cast; rfl, Nat.cast_le]
    omega
  simp only [this]

theorem foldl_retries_keep (post : List Setting)
    (hpost : ∀ s ∈ post, ∀ n, s ≠ Setting.maxRetries n) : ∀ b : Nat,
    post.foldl (fun b s =>
        match s with
        | Setting.maxRetries n => if n < 0 then 10 else (float64Int n).toNat
        | _ => b) b = b := by
  induction post with
  | nil => intro b; rfl
  | cons s ts ih =>
    intro b
    rw [List.foldl_cons]
    have hts : ∀ s ∈ ts, ∀ n, s ≠ Setting.maxRetries n :=
      fun s hs => hpost s (List.mem_cons_of_mem _ hs)
    cases s with
    | maxRetries n => exact absurd rfl (hpost _ (List.mem_cons_self _ _) n)
    | _ => exact ih hts b

/-- The retry budget when the last `WithMaxRetries` has a valid argument. -/
theorem retryBudget_last (pre post : List Setting) (r : Int) (hr : 0 ≤ r)
    (hpost : ∀ s ∈ post, ∀ n, s ≠ Setting.maxRetries n) :
    retryBudget (pre ++ Setting.maxRetries r :: post) = (float64Int r).toNat := by
  unfold retryBudget
  rw [List.foldl_append, List.foldl_cons, foldl_retries_keep post hpost]
  simp [not_lt.mpr hr]

/-- The retry budget when the last `WithMaxRetries` has a valid argument of at most
`2^53`. -/
theorem retryBudget_last_small (pre post : List Setting) (r : Int) (hr : 0 ≤ r)
    (hr53 : r ≤ 9007199254740992) (hpost : ∀ s ∈ post, ∀ n, s ≠ Setting.maxRetries n) :
    retryBudget (pre ++ Setting.maxRetries r :: post) = r.toNat := by
  rw [retryBudget_last pre post r hr hpost, float64Int_small r (by omega)]

theorem random_foldl (ss : List Setting) : ∀ c : Config,
    ((options ss).foldl (fun c opt => opt c) c).random =
      ss.foldl (fun r s =>
        match s with
        | Setting.rand g => g
        | _ => r) c.random := by
  induction ss with
  | nil => intro c; rfl
  | cons s ts ih =>
    intro c
    rw [foldl_options_cons, List.foldl_cons, ih]
    cases s with
    | rand g => rfl
    | maxRetries n =>
      by_cases hn : n < 0 <;> simp [Setting.option, WithMaxRetries, hn]
    | multiplier d =>
      by_cases hd : d ≤ 0 <;> simp [Setting.option, WithMultiplier, hd]
    | maxWait d =>
      by_cases hd : d ≤ 0 <;> simp [Setting.option, WithMaxWait, hd]

/-- The random source of a new policy is the injected one, and the process-seeded one
when none is injected. -/
theorem NewDecorrJitter_randomSource (seeded : Rand) (ss : List Setting) :
    (NewDecorrJitter seeded (options ss)).randomSource = (injected ss).getD seeded := by
  show (((options ss).foldl (fun c opt => opt c) defaultConfig).random).getD seeded = _
  rw [random_foldl]
  rfl

/-- The first delay of a policy with at least one retry: the base delay scaled by the
first draw, capped, in whole nanoseconds. -/
theorem first_Delay (seeded : Rand) (ss : List Setting) (h : 0 < retryBudget ss) :
    (DecorrJitter.Delay (DecorrJitter.Next (NewDecorrJitter seeded (options ss))).2).1 =
      nanoseconds (min ((((injected ss).getD seeded).Float64).1 *
        Duration.Seconds (baseDelay ss)) (Duration.Seconds (maxDelay ss))) := by
  have hcfg := cfg_NewDecorrJitter seeded ss
  have ht : ¬ (DecorrJitter.Next (NewDecorrJitter seeded (options ss))).2.cfg.maxRetries + 1 ≤
      (((DecorrJitter.Next (NewDecorrJitter seeded (options ss))).2.attemptIndex : Nat) : ℚ) := by
    rw [Next_cfg, Next_attemptIndex, hcfg.1, NewDecorrJitter_attemptIndex]
    rw [show ((retryBudget ss : ℚ) + 1) = ((retryBudget ss + 1 : Nat) : ℚ) by push_cast; rfl,
      Nat.cast_le]
    omega
  have hr : (DecorrJitter.Next (NewDecorrJitter seeded (options ss))).2.randomSource =
      (injected ss).getD seeded := NewDecorrJitter_randomSource seeded ss
  have hp : (DecorrJitter.Next (NewDecorrJitter seeded (options ss))).2.previousDelay = 0 := rfl
  rw [Delay_active _ ht]
  show nanoseconds (DecorrJitter.jitter _ _) = _
  unfold DecorrJitter.jitter
  simp only [hp, if_true, hr, Next_cfg, hcfg.2.1, hcfg.2.2]

/-! ## The decorrelated-jitter retryer: attempts and delays -/

/-- C6: for `0 ≤ r ≤ 2^53`, a retryer built by `NewDecorrJitter` whose last
`WithMaxRetries` is `WithMaxRetries(r)`, whatever the other options and the random
source: after any sequence of calls of `Next` and `Delay`, the next call of `Next`
returns `true` exactly when at most `r` calls of `Next` came before it. So the calls of
`Next` number 1 to `r + 1` return `true` and call number `r + 2` returns `false`,
whatever `Delay` was asked and returned in between. -/
theorem Next_true_exactly (seeded : Rand) (pre post : List Setting) (r : Int)
    (hr : 0 ≤ r) (hr53 : r ≤ 9007199254740992)
    (hpost : ∀ s ∈ post, ∀ n, s ≠ Setting.maxRetries n)
    (ops : List Op) (hops : Op.reset ∉ ops) :
    (DecorrJitter.Next (DecorrJitter.exec
      (NewDecorrJitter seeded (options (pre ++ Setting.maxRetries r :: post))) ops)).1 =
      decide ((ops.count Op.next : Int) ≤ r) := by
  have hcfg := (cfg_NewDecorrJitter seeded (pre ++ Setting.maxRetries r :: post)).1
  rw [retryBudget_last_small pre post r hr hr53 hpost] at hcfg
  rw [Next_result, exec_cfg, exec_attemptIndex _ _ hops, hcfg, NewDecorrJitter_attemptIndex]
  have : (((0 + List.count Op.next ops + 1 : Nat) : ℚ) ≤ (r.toNat : ℚ) + 1) ↔
      (ops.count Op.next : Int) ≤ r := by
    rw [show ((r.toNat : ℚ) + 1) = ((r.toNat + 1 : Nat) : ℚ) by push_cast; rfl, Nat.cast_le]
    omega
  simp only [this]

/-- C6, instantiated: `WithMaxRetries(1)` between a random source and a multiplier; the
third call of `Next` returns `false`. -/
theorem Next_true_exactly_witness :
    ((0 : Int) ≤ 1 ∧ (1 : Int) ≤ 9007199254740992) ∧
    Op.reset ∉ [Op.next, Op.delay, Op.next, Op.delay] ∧
    (DecorrJitter.Next (DecorrJitter.exec
      (NewDecorrJitter (halves 0)
        (options ([Setting.rand (some (halves 3))] ++
          Setting.maxRetries 1 :: [Setting.multiplier 5])))
      [Op.next, Op.delay, Op.next, Op.delay])).1 =
      decide ((([Op.next, Op.delay, Op.next, Op.delay].count Op.next : Nat) : Int) ≤ 1) :=
  ⟨by decide, by decide,
    Next_true_exactly (halves 0) [Setting.rand (some (halves 3))] [Setting.multiplier 5] 1
      (by decide) (by decide) (by simp) [Op.next, Op.delay, Op.next, Op.delay] (by decide)⟩

/-- C6 fails as stated for `r = 2^53 + 1`: `WithMaxRetries(2^53 + 1)` stores
`float64(2^53 + 1)`, which is `2^53`, so after `r` calls of `Next` the call number
`r + 1` already returns `false`. -/
theorem Next_false_within_budget :
    (List.replicate 9007199254740993 Op.next).count Op.next = 9007199254740993 ∧
    (DecorrJitter.Next (DecorrJitter.exec
      (NewDecorrJitter (halves 0) (options [Setting.maxRetries 9007199254740993]))
      (List.replicate 9007199254740993 Op.next))).1 = false := by
  have hops : Op.reset ∉ List.replicate 9007199254740993 Op.next := by
    intro h
    exact absurd (List.eq_of_mem_replicate h) (by decide)
  have hcfg := (cfg_NewDecorrJitter (halves 0) [Setting.maxRetries 9007199254740993]).1
  have hb : retryBudget [Setting.maxRetries 9007199254740993] = 9007199254740992 := by
    have h := retryBudget_last [] [] 9007199254740993 (by decide) (by simp)
    rw [float64Int_above] at h
    exact h
  refine ⟨List.count_replicate_self _ _, ?_⟩
  rw [Next_result, exec_cfg, exec_attemptIndex _ _ hops, hcfg, hb,
    NewDecorrJitter_attemptIndex, List.count_replicate_self]
  exact decide_eq_false (by norm_num)

/-- C7: for every list of settings and every random source, with `Next` and `Delay`
called in protocol order (one `Delay` per `Next`): each of the first `retryBudget + 1`
calls of `Next` returns `true`; the `Delay` of the last of them, the final permitted
attempt, is zero; the `Delay` of every earlier one is at least zero; and with a retry
budget of 0 the single `Delay` returns zero and leaves the policy, its random source
included, as it was. -/
theorem Delay_terminal_zero (seeded : Rand) (ss : List Setting) :
    (∀ j, j ≤ retryBudget ss →
      (DecorrJitter.Next
        (DecorrJitter.rounds (NewDecorrJitter seeded (options ss)) j)).1 = true) ∧
    (∀ j, j < retryBudget ss →
      0 ≤ (DecorrJitter.Delay (DecorrJitter.Next
        (DecorrJitter.rounds (NewDecorrJitter seeded (options ss)) j)).2).1) ∧
    (DecorrJitter.Delay (DecorrJitter.Next
      (DecorrJitter.rounds (NewDecorrJitter seeded (options ss)) (retryBudget ss))).2).1 = 0 ∧
    (retryBudget ss = 0 →
      DecorrJitter.Delay (DecorrJitter.Next (NewDecorrJitter seeded (options ss))).2 =
        (0, (DecorrJitter.Next (NewDecorrJitter seeded (options ss))).2)) := by
  have hcfg := cfg_NewDecorrJitter seeded ss
  have hterm : ∀ j, retryBudget ss ≤ j →
      (DecorrJitter.Next (DecorrJitter.rounds
        (NewDecorrJitter seeded (options ss)) j)).2.cfg.maxRetries + 1 ≤
      (((DecorrJitter.Next (DecorrJitter.rounds
        (NewDecorrJitter seeded (options ss)) j)).2.attemptIndex : Nat) : ℚ) := by
    intro j hj
    rw [Next_cfg, Next_attemptIndex, rounds_cfg, rounds_attemptIndex, hcfg.1,
      NewDecorrJitter_attemptIndex]
    rw [show ((retryBudget ss : ℚ) + 1) = ((retryBudget ss + 1 : Nat) : ℚ) by push_cast; rfl,
      Nat.cast_le]
    omega
  refine ⟨?_, ?_, ?_, ?_⟩
  · intro j hj
    rw [Next_rounds _ (retryBudget ss) hcfg.1 rfl j]
    exact decide_eq_true hj
  · intro j _
    refine (Delay_bounds _ (baseDelay ss) (maxDelay ss) (baseDelay_pos ss) (maxDelay_pos ss)
      ?_ ?_).1
    · rw [Next_cfg, rounds_cfg]; exact hcfg.2.1
    · rw [Next_cfg, rounds_cfg]; exact hcfg.2.2
  · rw [Delay_terminal _ (hterm _ le_rfl)]
  · intro h0
    have := hterm 0 (by omega)
    exact Delay_terminal _ this

/-- C7, instantiated: two retries with a base delay of 5 ns. -/
theorem Delay_terminal_zero_witness :
    retryBudget [Setting.maxRetries 2, Setting.multiplier 5] = 2 ∧
    0 ≤ (DecorrJitter.Delay (DecorrJitter.Next (DecorrJitter.rounds
      (NewDecorrJitter (halves 0)
        (options [Setting.maxRetries 2, Setting.multiplier 5])) 1)).2).1 ∧
    (DecorrJitter.Delay (DecorrJitter.Next (DecorrJitter.rounds
      (NewDecorrJitter (halves 0) (options [Setting.maxRetries 2, Setting.multiplier 5]))
      (retryBudget [Setting.maxRetries 2, Setting.multiplier 5]))).2).1 = 0 :=
  ⟨by decide,
    (Delay_terminal_zero (halves 0) [Setting.maxRetries 2, Setting.multiplier 5]).2.1 1
      (by decide),
    (Delay_terminal_zero (halves 0) [Setting.maxRetries 2, Setting.multiplier 5]).2.2.1⟩

/-- C7 fails as stated where it says that the delay of every attempt before the final
one is greater than zero. With one retry and a random source whose draw is 0, the delay
of the first of the two attempts is zero. With one retry, a base delay of 1 ns and a
draw of 1/2, the delay of half a nanosecond is returned as zero. -/
theorem Delay_zero_before_last :
    (0 < retryBudget [Setting.rand (some (zeros 0)), Setting.maxRetries 1] ∧
      (DecorrJitter.Delay (DecorrJitter.Next (DecorrJitter.rounds (NewDecorrJitter (halves 0)
        (options [Setting.rand (some (zeros 0)), Setting.maxRetries 1])) 0)).2).1 = 0) ∧
    (0 < retryBudget [Setting.multiplier 1, Setting.maxRetries 1] ∧
      (DecorrJitter.Delay (DecorrJitter.Next (DecorrJitter.rounds (NewDecorrJitter (halves 0)
        (options [Setting.multiplier 1, Setting.maxRetries 1])) 0)).2).1 = 0) := by
  have h1 := first_Delay (halves 0) [Setting.rand (some (zeros 0)), Setting.maxRetries 1]
    (by decide)
  have h2 := first_Delay (halves 0) [Setting.multiplier 1, Setting.maxRetries 1] (by decide)
  have hB1 : baseDelay [Setting.rand (some (zeros 0)), Setting.maxRetries 1] = 25000000 := by
    decide
  have hC1 : maxDelay [Setting.rand (some (zeros 0)), Setting.maxRetries 1] = 20000000000 := by
    decide
  have hB2 : baseDelay [Setting.multiplier 1, Setting.maxRetries 1] = 1 := by decide
  have hC2 : maxDelay [Setting.multiplier 1, Setting.maxRetries 1] = 20000000000 := by
    decide
  have hS1 : (((injected [Setting.rand (some (zeros 0)), Setting.maxRetries 1]).getD
      (halves 0)).Float64).1 = 0 := rfl
  have hS2 : (((injected [Setting.multiplier 1, Setting.maxRetries 1]).getD
      (halves 0)).Float64).1 = 1 / 2 := rfl
  rw [hB1, hC1, hS1] at h1
  rw [hB2, hC2, hS2] at h2
  refine ⟨⟨by decide, ?_⟩, ⟨by decide, ?_⟩⟩
  · show (DecorrJitter.Delay (DecorrJitter.Next (NewDecorrJitter (halves 0)
      (options [Setting.rand (some (zeros 0)), Setting.maxRetries 1]))).2).1 = 0
    rw [h1]
    norm_num [nanoseconds, Duration.Seconds]
  · show (DecorrJitter.Delay (DecorrJitter.Next (NewDecorrJitter (halves 0)
      (options [Setting.multiplier 1, Setting.maxRetries 1]))).2).1 = 0
    rw [h2]
    norm_num [nanoseconds, Duration.Seconds]

/-- C8: for every list of settings, every random source and every sequence of calls made
before, the delay that `Delay` returns lies between 0 and the delay cap: the argument of
the last `WithMaxWait`, or 20 s when that argument is not positive or no `WithMaxWait`
was given. -/
theorem Delay_within_cap (seeded : Rand) (ss : List Setting) (ops : List Op) :
    0 ≤ (DecorrJitter.Delay
      (DecorrJitter.exec (NewDecorrJitter seeded (options ss)) ops)).1 ∧
    (DecorrJitter.Delay
      (DecorrJitter.exec (NewDecorrJitter seeded (options ss)) ops)).1 ≤ maxDelay ss := by
  have hcfg := cfg_NewDecorrJitter seeded ss
  have hb := Delay_bounds (DecorrJitter.exec (NewDecorrJitter seeded (options ss)) ops)
    (baseDelay ss) (maxDelay ss) (baseDelay_pos ss) (maxDelay_pos ss)
    (by rw [exec_cfg]; exact hcfg.2.1) (by rw [exec_cfg]; exact hcfg.2.2)
  exact hb

/-! ## The delays the test expects -/

/-- The delays that `TestDecorrJitter` expects with the defaults: the first is below the
base delay of 25 ms, all are at most the cap of 20 s, and the eighth, 1.351602683 s, is
more than three times the seventh, 276.211616 ms. -/
theorem want_delays :
    TestDecorrJitter.want.head? = some 24836055 ∧ (24836055 : Duration) < Multiplier ∧
    (∀ d ∈ TestDecorrJitter.want, 0 ≤ d ∧ d ≤ MaxWait) ∧
    TestDecorrJitter.want[6]? = some 276211616 ∧
    TestDecorrJitter.want[7]? = some 1351602683 ∧
    (3 : Duration) * 276211616 < 1351602683 ∧ (1351602683 : Duration) < MaxWait := by
  decide

/-! ## Defaults and determinism -/

theorem Float64_same (g h : Rand) (hs : Rand.Same g h) :
    (Rand.Float64 g).1 = (Rand.Float64 h).1 ∧
      Rand.Same (Rand.Float64 g).2 (Rand.Float64 h).2 := by
  constructor
  · have := hs 0
    simpa [Rand.Float64] using this
  · intro n
    have := hs (n + 1)
    simp only [Rand.Float64]
    rw [show g.pos + 1 + n = g.pos + (n + 1) by omega,
      show h.pos + 1 + n = h.pos + (n + 1) by omega]
    exact this

theorem option_alike (s t : Setting) (hst : Setting.Same s t) (c d : Config)
    (hcd : Config.Alike c d) : Config.Alike (s.option c) (t.option d) := by
  obtain ⟨h1, h2, h3, h4⟩ := hcd
  cases s with
  | rand g =>
    cases t with
    | rand h =>
      cases g with
      | none =>
        cases h with
        | none => exact ⟨trivial, h2, h3, h4⟩
        | some h => exact absurd hst (by simp [Setting.Same])
      | some g =>
        cases h with
        | none => exact absurd hst (by simp [Setting.Same])
        | some h => exact ⟨hst, h2, h3, h4⟩
    | maxRetries m => exact absurd hst (by simp [Setting.Same])
    | multiplier e => exact absurd hst (by simp [Setting.Same])
    | maxWait e => exact absurd hst (by simp [Setting.Same])
  | maxRetries n =>
    cases t with
    | maxRetries m =>
      have hnm : n = m := hst
      subst hnm
      by_cases hn : n < 0
      · simpa [Setting.option, WithMaxRetries, hn, Config.Alike] using ⟨h1, h3, h4⟩
      · simpa [Setting.option, WithMaxRetries, hn, Config.Alike] using ⟨h1, h3, h4⟩
    | rand h => exact absurd hst (by simp [Setting.Same])
    | multiplier e => exact absurd hst (by simp [Setting.Same])
    | maxWait e => exact absurd hst (by simp [Setting.Same])
  | multiplier d1 =>
    cases t with
    | multiplier e =>
      have hde : d1 = e := hst
      subst hde
      by_cases hd : d1 ≤ 0
      · simpa [Setting.option, WithMultiplier, hd, Config.Alike] using ⟨h1, h2, h4⟩
      · simpa [Setting.option, WithMultiplier, hd, Config.Alike] using ⟨h1, h2, h4⟩
    | rand h => exact absurd hst (by simp [Setting.Same])
    | maxRetries m => exact absurd hst (by simp [Setting.Same])
    | maxWait e => exact absurd hst (by simp [Setting.Same])
  | maxWait d1 =>
    cases t with
    | maxWait e =>
      have hde : d1 = e := hst
      subst hde
      by_cases hd : d1 ≤ 0
      · simpa [Setting.option, WithMaxWait, hd, Config.Alike] using ⟨h1, h2, h3⟩
      · simpa [Setting.option, WithMaxWait, hd, Config.Alike] using ⟨h1, h2, h3⟩
    | rand h => exact absurd hst (by simp [Setting.Same])
    | maxRetries m => exact absurd hst (by simp [Setting.Same])
    | multiplier e => exact absurd hst (by simp [Setting.Same])

theorem foldl_options_alike (ss ts : List Setting) (h : List.Forall₂ Setting.Same ss ts) :
    ∀ c d : Config, Config.Alike c d →
      Config.Alike ((options ss).foldl (fun c opt => opt c) c)
        ((options ts).foldl (fun c opt => opt c) d) := by
  induction h with
  | nil => intro c d hcd; exact hcd
  | cons hst _ ih =>
    intro c d hcd
    rw [foldl_options_cons, foldl_options_cons]
    exact ih _ _ (option_alike _ _ hst c d hcd)

theorem NewDecorrJitter_alike (s1 s2 : Rand) (ss ts : List Setting)
    (hseed : (injected ss).isSome = true ∨ Rand.Same s1 s2)
    (h : List.Forall₂ Setting.Same ss ts) :
    DecorrJitter.Alike (NewDecorrJitter s1 (options ss)) (NewDecorrJitter s2 (options ts)) := by
  have hc := foldl_options_alike ss ts h defaultConfig defaultConfig
    ⟨trivial, rfl, rfl, rfl⟩
  obtain ⟨h1, h2, h3, h4⟩ := hc
  refine ⟨h2, h3, h4, rfl, rfl, ?_⟩
  simp only [NewDecorrJitter]
  rcases hg : ((options ss).foldl (fun c opt => opt c) defaultConfig).random with _ | g <;>
    rcases hh : ((options ts).foldl (fun c opt => opt c) defaultConfig).random with _ | k <;>
    rw [hg, hh] at h1
  · have hi : injected ss = none := by
      have e := random_foldl ss defaultConfig
      rw [hg] at e
      exact e.symm
    rcases hseed with hs | hs
    · rw [hi] at hs
      exact absurd hs (by simp)
    · simpa [hg, hh] using hs
  · exact absurd h1 (by simp [Rand.SamePtr])
  · exact absurd h1 (by simp [Rand.SamePtr])
  · simpa [hg, hh] using h1

theorem call_alike (p q : DecorrJitter) (h : DecorrJitter.Alike p q) (op : Op) :
    (DecorrJitter.call p op).1 = (DecorrJitter.call q op).1 ∧
      DecorrJitter.Alike (DecorrJitter.call p op).2 (DecorrJitter.call q op).2 := by
  obtain ⟨h1, h2, h3, h4, h5, h6⟩ := h
  cases op with
  | next =>
    refine ⟨?_, h1, h2, h3, ?_, h5, h6⟩
    · simp only [DecorrJitter.call, Next_result, h1, h4]
    · simp only [DecorrJitter.call, Next_attemptIndex, h4]
  | delay =>
    have hf := Float64_same _ _ h6
    by_cases ht : p.cfg.maxRetries + 1 ≤ (p.attemptIndex : ℚ)
    · have ht' : q.cfg.maxRetries + 1 ≤ (q.attemptIndex : ℚ) := by rw [← h1, ← h4]; exact ht
      have hp := Delay_terminal p ht
      have hq := Delay_terminal q ht'
      refine ⟨?_, ?_⟩
      · show Out.wait (DecorrJitter.Delay p).1 = Out.wait (DecorrJitter.Delay q).1
        rw [hp, hq]
      · show DecorrJitter.Alike (DecorrJitter.Delay p).2 (DecorrJitter.Delay q).2
        rw [hp, hq]
        exact ⟨h1, h2, h3, h4, h5, h6⟩
    · have ht' : ¬ q.cfg.maxRetries + 1 ≤ (q.attemptIndex : ℚ) := by rw [← h1, ← h4]; exact ht
      have hp := Delay_active p ht
      have hq := Delay_active q ht'
      have hj : DecorrJitter.jitter p (Rand.Float64 p.randomSource).1 =
          DecorrJitter.jitter q (Rand.Float64 q.randomSource).1 := by
        unfold DecorrJitter.jitter
        rw [hf.1, h2, h3, h5]
      refine ⟨?_, ?_⟩
      · show Out.wait (DecorrJitter.Delay p).1 = Out.wait (DecorrJitter.Delay q).1
        rw [hp, hq]
        simp only
        rw [hj]
      · show DecorrJitter.Alike (DecorrJitter.Delay p).2 (DecorrJitter.Delay q).2
        rw [hp, hq]
        exact ⟨h1, h2, h3, h4, hj, hf.2⟩
  | reset => exact ⟨rfl, h1, h2, h3, rfl, rfl, h6⟩

theorem outs_alike (ops : List Op) : ∀ p q : DecorrJitter, DecorrJitter.Alike p q →
    DecorrJitter.outs p ops = DecorrJitter.outs q ops := by
  induction ops with
  | nil => intro p q _; rfl
  | cons op ops ih =>
    intro p q h
    have hc := call_alike p q h op
    rw [DecorrJitter.outs, DecorrJitter.outs, hc.1, ih _ _ hc.2]

/-- C9: an invalid override is the documented default. For every `Config`,
`WithMaxRetries(n)` with `n < 0` gives the `Config` that `WithMaxRetries(10)` gives,
`WithMultiplier(d)` with `d <= 0` the one `WithMultiplier(25ms)` gives, and
`WithMaxWait(d)` with `d <= 0` the one `WithMaxWait(20s)` gives. Hence a policy built with
such invalid values is the policy built with 10, 25 ms and 20 s, and with the same random
source every sequence of calls returns the same results, delay by delay. -/
theorem invalid_overrides_are_defaults :
    (∀ (c : Config) (n : Int), n < 0 → WithMaxRetries n c = WithMaxRetries 10 c) ∧
    (∀ (c : Config) (d : Duration), d ≤ 0 →
      WithMultiplier d c = WithMultiplier (25 * Millisecond) c) ∧
    (∀ (c : Config) (d : Duration), d ≤ 0 →
      WithMaxWait d c = WithMaxWait (20 * Second) c) ∧
    (∀ (seeded : Rand) (g : Ptr Rand) (n : Int) (d1 d2 : Duration),
      n < 0 → d1 ≤ 0 → d2 ≤ 0 →
      NewDecorrJitter seeded
          [WithRand g, WithMaxRetries n, WithMultiplier d1, WithMaxWait d2] =
        NewDecorrJitter seeded
          [WithRand g, WithMaxRetries 10, WithMultiplier (25 * Millisecond),
            WithMaxWait (20 * Second)] ∧
      ∀ ops : List Op,
        DecorrJitter.outs (NewDecorrJitter seeded
          [WithRand g, WithMaxRetries n, WithMultiplier d1, WithMaxWait d2]) ops =
        DecorrJitter.outs (NewDecorrJitter seeded
          [WithRand g, WithMaxRetries 10, WithMultiplier (25 * Millisecond),
            WithMaxWait (20 * Second)]) ops) := by
  have e1 : ∀ (c : Config) (n : Int), n < 0 → WithMaxRetries n c = WithMaxRetries 10 c := by
    intro c n hn
    simp [WithMaxRetries, hn, MaxRetries]
  have e2 : ∀ (c : Config) (d : Duration), d ≤ 0 →
      WithMultiplier d c = WithMultiplier (25 * Millisecond) c := by
    intro c d hd
    simp [WithMultiplier, hd, Multiplier, Millisecond]
  have e3 : ∀ (c : Config) (d : Duration), d ≤ 0 →
      WithMaxWait d c = WithMaxWait (20 * Second) c := by
    intro c d hd
    simp [WithMaxWait, hd, MaxWait, Second]
  refine ⟨e1, e2, e3, ?_⟩
  intro seeded g n d1 d2 hn hd1 hd2
  have heq : NewDecorrJitter seeded
          [WithRand g, WithMaxRetries n, WithMultiplier d1, WithMaxWait d2] =
        NewDecorrJitter seeded
          [WithRand g, WithMaxRetries 10, WithMultiplier (25 * Millisecond),
            WithMaxWait (20 * Second)] := by
    simp only [NewDecorrJitter, List.foldl_cons, List.foldl_nil]
    rw [e1 _ n hn, e2 _ d1 hd1, e3 _ d2 hd2]
  exact ⟨heq, fun ops => by rw [heq]⟩

/-- C9, instantiated: the values of the test table, `maxRetries = -1`, `multiplier = 0`,
`maxWait = -1`. -/
theorem invalid_overrides_are_defaults_witness :
    ((-1 : Int) < 0 ∧ (0 : Duration) ≤ 0 ∧ (-1 : Duration) ≤ 0) ∧
    NewDecorrJitter (halves 0)
        [WithRand (some (halves 0)), WithMaxRetries (-1), WithMultiplier 0,
          WithMaxWait (-1)] =
      NewDecorrJitter (halves 0)
        [WithRand (some (halves 0)), WithMaxRetries 10, WithMultiplier (25 * Millisecond),
          WithMaxWait (20 * Second)] :=
  ⟨by decide,
    (invalid_overrides_are_defaults.2.2.2 (halves 0) (some (halves 0)) (-1) 0 (-1)
      (by decide) (by decide) (by decide)).1⟩

/-- C10: two retryers built by `NewDecorrJitter` from settings with the same values, in
the same order, whose injected random sources yield the same sequence of values (same
seed), return the same result from every call of `Next`, `Delay` and `Reset`, in every
sequence of calls: the same sequence of delays. The process-seeded sources of the two
retryers may differ when a source is injected; when none is injected they too have to
yield the same sequence. The injected source is the one that decides the delays: with
another injected source the first delay is another one. -/
theorem same_seed_same_delays (s1 s2 : Rand) (ss ts : List Setting)
    (hsame : List.Forall₂ Setting.Same ss ts)
    (hseed : (injected ss).isSome = true ∨ Rand.Same s1 s2) (ops : List Op) :
    DecorrJitter.outs (NewDecorrJitter s1 (options ss)) ops =
      DecorrJitter.outs (NewDecorrJitter s2 (options ts)) ops ∧
    DecorrJitter.outs (NewDecorrJitter s1 (options [Setting.rand (some (zeros 0))]))
        [Op.next, Op.delay] ≠
      DecorrJitter.outs (NewDecorrJitter s1 (options [Setting.rand (some (halves 0))]))
        [Op.next, Op.delay] := by
  refine ⟨outs_alike ops _ _ (NewDecorrJitter_alike s1 s2 ss ts hseed hsame), ?_⟩
  intro h
  have h2 : (DecorrJitter.Delay (DecorrJitter.Next
        (NewDecorrJitter s1 (options [Setting.rand (some (zeros 0))]))).2).1 =
      (DecorrJitter.Delay (DecorrJitter.Next
        (NewDecorrJitter s1 (options [Setting.rand (some (halves 0))]))).2).1 :=
    Out.wait.inj (List.cons.inj (List.cons.inj h).2).1
  rw [first_Delay s1 _ (by decide), first_Delay s1 _ (by decide)] at h2
  have hB0 : baseDelay [Setting.rand (some (zeros 0))] = 25000000 := by decide
  have hC0 : maxDelay [Setting.rand (some (zeros 0))] = 20000000000 := by decide
  have hB1 : baseDelay [Setting.rand (some (halves 0))] = 25000000 := by decide
  have hC1 : maxDelay [Setting.rand (some (halves 0))] = 20000000000 := by decide
  have hS0 : (((injected [Setting.rand (some (zeros 0))]).getD s1).Float64).1 = 0 := rfl
  have hS1 : (((injected [Setting.rand (some (halves 0))]).getD s1).Float64).1 = 1 / 2 := rfl
  rw [hB0, hC0, hS0, hB1, hC1, hS1] at h2
  norm_num [nanoseconds, Duration.Seconds] at h2

/-- C10, instantiated: the two injected sources have been drawn from 1 and 9 times and
yield `1/2` from then on; the process-seeded sources differ, one yields `1/2` and the
other `0`. -/
theorem same_seed_same_delays_witness :
    List.Forall₂ Setting.Same
      [Setting.rand (some (halves 1)), Setting.maxRetries 2]
      [Setting.rand (some (halves 9)), Setting.maxRetries 2] ∧
    ((injected [Setting.rand (some (halves 1)), Setting.maxRetries 2]).isSome = true ∨
      Rand.Same (halves 0) (zeros 4)) ∧
    DecorrJitter.outs (NewDecorrJitter (halves 0)
        (options [Setting.rand (some (halves 1)), Setting.maxRetries 2]))
        [Op.next, Op.delay, Op.next, Op.delay, Op.next, Op.delay, Op.next] =
      DecorrJitter.outs (NewDecorrJitter (zeros 4)
        (options [Setting.rand (some (halves 9)), Setting.maxRetries 2]))
        [Op.next, Op.delay, Op.next, Op.delay, Op.next, Op.delay, Op.next] :=
  ⟨List.Forall₂.cons (fun _ => rfl) (List.Forall₂.cons rfl List.Forall₂.nil),
    Or.inl rfl,
    (same_seed_same_delays (halves 0) (zeros 4)
      [Setting.rand (some (halves 1)), Setting.maxRetries 2]
      [Setting.rand (some (halves 9)), Setting.maxRetries 2]
      (List.Forall₂.cons (fun _ => rfl) (List.Forall₂.cons rfl List.Forall₂.nil))
      (Or.inl rfl) _).1⟩

/-! ## `Run`: exhaustion of the retry budget -/

section
variable {W ε : Type} (ctx : Context W) (r : Retryer W) (f : Work W ε)

/-- When `f` always fails and the context is never cancelled, `Run` goes round the loop
as long as `Next` returns `true`. -/
theorem Run_exhausts (w : W) (n : Nat)
    (hnext : ∀ j, j < n → (r.Next (passes ctx r f j (1, w)).2).1 = true)
    (hstop : (r.Next (passes ctx r f n (1, w)).2).1 = false)
    (hfail : ∀ i w', (f i w').1 ≠ none)
    (hctx : ∀ d w', (ctx d w').1 = false) (fuel : Nat) (hfuel : n + 1 ≤ fuel) :
    Run fuel ctx r f w =
      some { err := passesErr ctx r f n (1, w) none,
             trace := passesEvents ctx r f n (1, w) ++ [Event.next false] } := by
  obtain ⟨k, rfl⟩ : ∃ k, fuel = n + (k + 1) := ⟨fuel - (n + 1), by omega⟩
  refine loop_passes_stop ctx r f n k (1, w) none ?_ hstop
  intro j hj
  refine ⟨hnext j hj, hfail _ _, ?_⟩
  simp [cancels, hctx]

/-- The attempt numbers of `n` passes, from 1. -/
theorem attempts_passesEvents (w : W) (n : Nat) :
    (calls (passesEvents ctx r f n (1, w))).map Prod.fst =
      (List.range n).map (fun j : Nat => wrapInt ((j : Int) + 1)) := by
  rw [calls_passesEvents, List.map_map]
  apply List.map_congr_left
  intro j _
  show (passes ctx r f j (1, w)).1 = _
  exact passes_counter ctx r f j w

/-- The last call of `n + 1` passes, from 1. -/
theorem last_passesEvents (w : W) (n : Nat) :
    (calls (passesEvents ctx r f (n + 1) (1, w))).getLast? =
      some (wrapInt ((n : Int) + 1), passesErr ctx r f (n + 1) (1, w) none) := by
  rw [calls_passesEvents, List.getLast?_map, List.getLast?_range, passesErr_succ]
  simp [passes_counter]

end

theorem calls_stop {ε : Type} (es : List (Event ε)) :
    calls (es ++ [Event.next false]) = calls es := by
  rw [calls_append]
  simp [calls]

/-- The world of a `budget` retryer counts the passes. -/
theorem budget_passes (n : Nat) (d : Duration) (j : Nat) : ∀ (i : Int) (w : Nat),
    (passes background (budget n d) (failing : Work Nat Int) j (i, w)).2 = w + j := by
  induction j with
  | zero => intro i w; rfl
  | succ k ih =>
    intro i w
    rw [passes, ih]
    simp only [pass, budget, failing, background]
    split <;> omega

/-- The policy in a world whose other collaborators leave it alone follows the
protocol. -/
theorem decorr_passes {ω ε : Type} (ctx : Context (DecorrJitter × ω))
    (f : Work (DecorrJitter × ω) ε)
    (hf : ∀ i w', (f i w').2.1 = w'.1) (hc : ∀ d w', (ctx d w').2.1 = w'.1)
    (j : Nat) : ∀ (i : Int) (p : DecorrJitter) (w : ω),
    (passes ctx (DecorrJitter.retryer ω) f j (i, (p, w))).2.1 = DecorrJitter.rounds p j := by
  induction j with
  | zero => intro i p w; rfl
  | succ k ih =>
    intro i p w
    rw [passes_succ, DecorrJitter.rounds, ← ih i p w]
    simp only [pass, DecorrJitter.retryer]
    split
    · rw [hc, hf]
    · rw [hf]

/-- C1, amended: for `1 ≤ n < 2^63`, when `Next` returns `true` on its first `n` calls and
`false` on the next one, `f` fails on every call and the context is never cancelled,
`Run` returns, has invoked `f` exactly `n` times with the attempt arguments 1, 2, ..., `n`
in that order, and returns the error of the `n`-th invocation. In particular, with the
retryer of `NewDecorrJitter` whose last `WithMaxRetries` is `WithMaxRetries(1)`, `f` is
invoked exactly twice, with attempts 1 and 2, and `Run` returns the second error. -/
theorem Run_exhausts_budget :
    (∀ {W ε : Type} (ctx : Context W) (r : Retryer W) (f : Work W ε) (w : W) (n : Nat),
      1 ≤ n → (n : Int) < 9223372036854775808 →
      (∀ j, j < n → (r.Next (passes ctx r f j (1, w)).2).1 = true) →
      (r.Next (passes ctx r f n (1, w)).2).1 = false →
      (∀ i w', (f i w').1 ≠ none) →
      (∀ d w', (ctx d w').1 = false) →
      ∃ out : Result ε,
        (∀ fuel, n + 1 ≤ fuel → Run fuel ctx r f w = some out) ∧
        (calls out.trace).map Prod.fst = (List.range n).map (fun j : Nat => (j : Int) + 1) ∧
        (calls out.trace).getLast? = some ((n : Int), out.err) ∧
        out.err ≠ none) ∧
    (∀ {ω ε : Type} (ctx : Context (DecorrJitter × ω)) (f : Work (DecorrJitter × ω) ε)
      (seeded : Rand) (pre post : List Setting) (w : ω),
      (∀ s ∈ post, ∀ m, s ≠ Setting.maxRetries m) →
      (∀ i w', (f i w').1 ≠ none) → (∀ i w', (f i w').2.1 = w'.1) →
      (∀ d w', (ctx d w').1 = false) → (∀ d w', (ctx d w').2.1 = w'.1) →
      ∃ (out : Result ε) (e1 e2 : ε),
        (∀ fuel, 3 ≤ fuel →
          Run fuel ctx (DecorrJitter.retryer ω) f
            (NewDecorrJitter seeded (options (pre ++ Setting.maxRetries 1 :: post)), w) =
              some out) ∧
        calls out.trace = [(1, some e1), (2, some e2)] ∧ out.err = some e2) := by
  constructor
  · intro W ε ctx r f w n hn hlt hnext hstop hfail hctx
    obtain ⟨m, rfl⟩ : ∃ m, n = m + 1 := ⟨n - 1, by omega⟩
    refine ⟨{ err := passesErr ctx r f (m + 1) (1, w) none,
              trace := passesEvents ctx r f (m + 1) (1, w) ++ [Event.next false] },
      Run_exhausts ctx r f w (m + 1) hnext hstop hfail hctx, ?_, ?_, ?_⟩
    · show List.map Prod.fst (calls (passesEvents ctx r f (m + 1) (1, w) ++
        [Event.next false])) = _
      rw [calls_stop, attempts_passesEvents]
      apply List.map_congr_left
      intro j hj
      have hj' : j < m + 1 := List.mem_range.mp hj
      apply wrapInt_of_lt <;> omega
    · show (calls (passesEvents ctx r f (m + 1) (1, w) ++ [Event.next false])).getLast? = _
      rw [calls_stop, last_passesEvents, wrapInt_of_lt _ (by omega) (by omega)]
      push_cast
      rfl
    · show passesErr ctx r f (m + 1) (1, w) none ≠ none
      rw [passesErr_succ]
      exact hfail _ _
  · intro ω ε ctx f seeded pre post w hpost hfail hfkeep hctx hckeep
    have hcfg := (cfg_NewDecorrJitter seeded (pre ++ Setting.maxRetries 1 :: post)).1
    rw [retryBudget_last_small pre post 1 (by decide) (by decide) hpost] at hcfg
    have hN : ∀ j, ((DecorrJitter.retryer ω).Next
        (passes ctx (DecorrJitter.retryer ω) f j
          (1, (NewDecorrJitter seeded (options (pre ++ Setting.maxRetries 1 :: post)),
            w))).2).1 = decide (j ≤ 1) := by
      intro j
      show (DecorrJitter.Next _).1 = _
      rw [decorr_passes ctx f hfkeep hckeep j]
      exact Next_rounds _ 1 (by rw [hcfg]; rfl) rfl j
    have hrun := Run_exhausts ctx (DecorrJitter.retryer ω) f
      (NewDecorrJitter seeded (options (pre ++ Setting.maxRetries 1 :: post)), w) 2
      (fun j hj => by rw [hN j]; exact decide_eq_true (by omega))
      (by rw [hN 2]; decide) hfail hctx
    rcases h1 : (f (passes ctx (DecorrJitter.retryer ω) f 0
        (1, (NewDecorrJitter seeded (options (pre ++ Setting.maxRetries 1 :: post)), w))).1
        ((DecorrJitter.retryer ω).Next (passes ctx (DecorrJitter.retryer ω) f 0
        (1, (NewDecorrJitter seeded (options (pre ++ Setting.maxRetries 1 :: post)),
          w))).2).2).1 with _ | e1
    · exact absurd h1 (hfail _ _)
    rcases h2 : (f (passes ctx (DecorrJitter.retryer ω) f 1
        (1, (NewDecorrJitter seeded (options (pre ++ Setting.maxRetries 1 :: post)), w))).1
        ((DecorrJitter.retryer ω).Next (passes ctx (DecorrJitter.retryer ω) f 1
        (1, (NewDecorrJitter seeded (options (pre ++ Setting.maxRetries 1 :: post)),
          w))).2).2).1 with _ | e2
    · exact absurd h2 (hfail _ _)
    refine ⟨{ err := passesErr ctx (DecorrJitter.retryer ω) f 2
                (1, (NewDecorrJitter seeded (options (pre ++ Setting.maxRetries 1 :: post)),
                  w)) none,
              trace := passesEvents ctx (DecorrJitter.retryer ω) f 2
                (1, (NewDecorrJitter seeded (options (pre ++ Setting.maxRetries 1 :: post)),
                  w)) ++ [Event.next false] }, e1, e2, hrun, ?_, ?_⟩
    · show calls (passesEvents ctx (DecorrJitter.retryer ω) f 2
        (1, (NewDecorrJitter seeded (options (pre ++ Setting.maxRetries 1 :: post)), w)) ++
        [Event.next false]) = _
      rw [calls_stop, calls_passesEvents]
      have hr : List.range 2 = [0, 1] := rfl
      rw [hr]
      simp only [List.map_cons, List.map_nil]
      rw [h1, h2, passes_counter, passes_counter]
      rfl
    · show passesErr ctx (DecorrJitter.retryer ω) f 2
        (1, (NewDecorrJitter seeded (options (pre ++ Setting.maxRetries 1 :: post)), w))
        none = _
      rw [passesErr_succ, h2]

/-- C1 amended, instantiated: a retryer that allows two attempts with a delay of 5 ns,
and the policy of `NewDecorrJitter` with `WithMaxRetries(1)`; `f` always fails and the
context is never cancelled. -/
theorem Run_exhausts_budget_witness :
    ((1 ≤ 2 ∧ ((2 : Nat) : Int) < 9223372036854775808) ∧
      (∀ j, j < 2 →
        ((budget 2 5).Next
          (passes background (budget 2 5) (failing : Work Nat Int) j (1, 0)).2).1 = true) ∧
      ((budget 2 5).Next
        (passes background (budget 2 5) (failing : Work Nat Int) 2 (1, 0)).2).1 = false) ∧
    (∃ out : Result Int,
      (∀ fuel, 2 + 1 ≤ fuel → Run fuel background (budget 2 5) failing 0 = some out) ∧
      (calls out.trace).map Prod.fst = (List.range 2).map (fun j : Nat => (j : Int) + 1) ∧
      (calls out.trace).getLast? = some (((2 : Nat) : Int), out.err) ∧
      out.err ≠ none) ∧
    (∃ (out : Result Int) (e1 e2 : Int),
      (∀ fuel, 3 ≤ fuel →
        Run fuel background (DecorrJitter.retryer Unit) failing
          (NewDecorrJitter (halves 0)
            (options ([Setting.rand none] ++ Setting.maxRetries 1 :: [Setting.maxWait 0])),
            ()) = some out) ∧
      calls out.trace = [(1, some e1), (2, some e2)] ∧ out.err = some e2) :=
  ⟨⟨⟨by decide, by decide⟩, by decide, by decide⟩,
    Run_exhausts_budget.1 background (budget 2 5) failing 0 2 (by decide) (by decide)
      (by decide) (by decide) (fun i w => by simp [failing]) (fun _ _ => rfl),
    Run_exhausts_budget.2 background failing (halves 0) [Setting.rand none]
      [Setting.maxWait 0] () (by simp) (fun i w => by simp [failing]) (fun _ _ => rfl)
      (fun _ _ => rfl) (fun _ _ => rfl)⟩

/-- C1, as stated for every `n`, fails at `n = 2^63`: the retryer allows `2^63` attempts
without delay, `f` always fails and the context is never cancelled. The premises of the
claim hold, `Run` returns after `2^63` invocations of `f`, and the last of them receives
the attempt number `-2^63`, the `int` counter having wrapped around: the attempt
arguments are not 1, 2, ..., `2^63`. -/
theorem Run_attempt_wraps :
    (∀ j, j < 9223372036854775808 →
      ((budget 9223372036854775808 0).Next
        (passes background (budget 9223372036854775808 0) (failing : Work Nat Int) j
          (1, 0)).2).1 = true) ∧
    ((budget 9223372036854775808 0).Next
      (passes background (budget 9223372036854775808 0) (failing : Work Nat Int)
        9223372036854775808 (1, 0)).2).1 = false ∧
    (∀ (i : Int) (w : Nat), ((failing : Work Nat Int) i w).1 ≠ none) ∧
    (∀ (d : Duration) (w : Nat), ((background : Context Nat) d w).1 = false) ∧
    ∃ out : Result Int,
      (∀ fuel, 9223372036854775808 + 1 ≤ fuel →
        Run fuel background (budget 9223372036854775808 0) failing 0 = some out) ∧
      (calls out.trace).getLast? =
        some (-9223372036854775808, some (-9223372036854775808)) ∧
      (calls out.trace).map Prod.fst ≠
        (List.range 9223372036854775808).map (fun j : Nat => (j : Int) + 1) := by
  have hN : ∀ j, ((budget 9223372036854775808 0).Next
      (passes background (budget 9223372036854775808 0) (failing : Work Nat Int) j
        (1, 0)).2).1 = decide (j < 9223372036854775808) := by
    intro j
    rw [budget_passes]
    simp [budget]
  have hfail : ∀ (i : Int) (w : Nat), ((failing : Work Nat Int) i w).1 ≠ none :=
    fun i w => by simp [failing]
  have hctx : ∀ (d : Duration) (w : Nat), ((background : Context Nat) d w).1 = false :=
    fun _ _ => rfl
  have hnext : ∀ j, j < 9223372036854775808 →
      ((budget 9223372036854775808 0).Next
        (passes background (budget 9223372036854775808 0) (failing : Work Nat Int) j
          (1, 0)).2).1 = true :=
    fun j hj => by rw [hN j]; exact decide_eq_true hj
  have hstop : ((budget 9223372036854775808 0).Next
      (passes background (budget 9223372036854775808 0) (failing : Work Nat Int)
        9223372036854775808 (1, 0)).2).1 = false := by
    rw [hN]; exact decide_eq_false (lt_irrefl _)
  have hlast : (calls (passesEvents background (budget 9223372036854775808 0)
      (failing : Work Nat Int) (9223372036854775807 + 1) (1, 0) ++
      [Event.next false])).getLast? =
      some (-9223372036854775808, some (-9223372036854775808)) := by
    rw [calls_stop, last_passesEvents, passesErr_succ, passes_counter]
    have hw : wrapInt (((9223372036854775807 : Nat) : Int) + 1) = -9223372036854775808 := by
      unfold wrapInt
      omega
    rw [hw]
    rfl
  refine ⟨hnext, hstop, hfail, hctx,
    { err := passesErr background (budget 9223372036854775808 0) failing
        9223372036854775808 (1, 0) none,
      trace := passesEvents background (budget 9223372036854775808 0) failing
        9223372036854775808 (1, 0) ++ [Event.next false] },
    Run_exhausts background (budget 9223372036854775808 0) failing 0 9223372036854775808
      hnext hstop hfail hctx, hlast, ?_⟩
  intro heq
  have h1 := congrArg List.getLast? heq
  rw [List.getLast?_map, List.getLast?_map, List.getLast?_range] at h1
  have h2 : (calls (passesEvents background (budget 9223372036854775808 0)
      (failing : Work Nat Int) 9223372036854775808 (1, 0) ++
      [Event.next false])).getLast? =
      some (-9223372036854775808, some (-9223372036854775808)) := hlast
  simp only at h1
  rw [h2] at h1
  simp at h1

/-! ## The options, one by one -/

theorem Seconds_pos (d : Duration) (h : 0 < d) : 0 < Duration.Seconds d := by
  unfold Duration.Seconds
  exact div_pos (by exact_mod_cast h) (by norm_num)

/-- C13: for every `n` and every `Config`, `WithMaxRetries(n)` sets `maxRetries` to
`float64(n)` when `n >= 0`, which is `n` itself when `n` is at most `2^53`, and to the
default `MaxRetries`, which is 10, when `n < 0`. -/
theorem WithMaxRetries_sets (c : Config) (n : Int) :
    (0 ≤ n → (WithMaxRetries n c).maxRetries = float64 n) ∧
    (0 ≤ n → n ≤ 9007199254740992 → (WithMaxRetries n c).maxRetries = (n : ℚ)) ∧
    (n < 0 → (WithMaxRetries n c).maxRetries = float64 MaxRetries ∧
      float64 MaxRetries = 10) := by
  refine ⟨?_, ?_, ?_⟩
  · intro h
    simp [WithMaxRetries, not_lt.mpr h]
  · intro h h53
    rw [← float64_small n (by omega)]
    simp [WithMaxRetries, not_lt.mpr h]
  · intro h
    exact ⟨by simp [WithMaxRetries, h], float64_MaxRetries⟩

/-- C13, instantiated: `WithMaxRetries(3)` and `WithMaxRetries(-1)` on the zero
`Config`. -/
theorem WithMaxRetries_sets_witness :
    ((0 : Int) ≤ 3 ∧ (3 : Int) ≤ 9007199254740992 ∧ (-1 : Int) < 0) ∧
    (WithMaxRetries 3 zeroConfig).maxRetries = float64 3 ∧
    (WithMaxRetries 3 zeroConfig).maxRetries = ((3 : Int) : ℚ) ∧
    ((WithMaxRetries (-1) zeroConfig).maxRetries = float64 MaxRetries ∧
      float64 MaxRetries = 10) :=
  ⟨by decide, (WithMaxRetries_sets zeroConfig 3).1 (by decide),
    (WithMaxRetries_sets zeroConfig 3).2.1 (by decide) (by decide),
    (WithMaxRetries_sets zeroConfig (-1)).2.2 (by decide)⟩

/-- C13 fails as stated for `n = 2^53 + 1`: `float64(n)` is the double nearest to `n`,
and `WithMaxRetries(2^53 + 1)` sets `maxRetries` to `2^53`. -/
theorem WithMaxRetries_rounds :
    (0 : Int) ≤ 9007199254740993 ∧
    (WithMaxRetries 9007199254740993 zeroConfig).maxRetries = 9007199254740992 ∧
    (WithMaxRetries 9007199254740993 zeroConfig).maxRetries ≠
      ((9007199254740993 : Int) : ℚ) := by
  have e : (WithMaxRetries 9007199254740993 zeroConfig).maxRetries = 9007199254740992 := by
    have h : ¬ (9007199254740993 : Int) < 0 := by decide
    simp only [WithMaxRetries, h, if_false, float64, float64Int_above]
    norm_num
  refine ⟨by decide, e, ?_⟩
  rw [e]
  norm_num

/-! ## Validity and independence of the options -/

theorem WithMaxRetries_nonneg (n : Int) (c : Config) : 0 ≤ (WithMaxRetries n c).maxRetries := by
  by_cases h : n < 0
  · simp [WithMaxRetries, h, float64_MaxRetries]
  · simpa [WithMaxRetries, h] using float64_nonneg n (not_lt.mp h)

theorem WithMultiplier_pos (d : Duration) (c : Config) :
    0 < (WithMultiplier d c).multiplierSeconds := by
  by_cases h : d ≤ 0
  · simpa [WithMultiplier, h] using Seconds_pos Multiplier (by decide)
  · simpa [WithMultiplier, h] using Seconds_pos d (not_le.mp h)

theorem WithMaxWait_pos (d : Duration) (c : Config) :
    0 < (WithMaxWait d c).maxWaitSeconds := by
  by_cases h : d ≤ 0
  · simpa [WithMaxWait, h] using Seconds_pos MaxWait (by decide)
  · simpa [WithMaxWait, h] using Seconds_pos d (not_le.mp h)

/-- Each option leaves the fields of the other options as they are. -/
theorem option_frame (s : Setting) (c : Config) :
    (s.field ≠ Field.random → (s.option c).random = c.random) ∧
    (s.field ≠ Field.maxRetries → (s.option c).maxRetries = c.maxRetries) ∧
    (s.field ≠ Field.multiplierSeconds →
      (s.option c).multiplierSeconds = c.multiplierSeconds) ∧
    (s.field ≠ Field.maxWaitSeconds → (s.option c).maxWaitSeconds = c.maxWaitSeconds) := by
  cases s with
  | rand g => simp [Setting.option, Setting.field, WithRand]
  | maxRetries n =>
    by_cases h : n < 0 <;> simp [Setting.option, Setting.field, WithMaxRetries, h]
  | multiplier d =>
    by_cases h : d ≤ 0 <;> simp [Setting.option, Setting.field, WithMultiplier, h]
  | maxWait d =>
    by_cases h : d ≤ 0 <;> simp [Setting.option, Setting.field, WithMaxWait, h]

/-- The retry budget is not negative once it is so or an option sets it. -/
theorem foldl_maxRetries_nonneg (ss : List Setting) : ∀ c : Config,
    (0 ≤ c.maxRetries ∨ ∃ n, Setting.maxRetries n ∈ ss) →
    0 ≤ ((options ss).foldl (fun c opt => opt c) c).maxRetries := by
  induction ss with
  | nil =>
    intro c h
    rcases h with h | ⟨n, hn⟩
    · exact h
    · exact absurd hn (List.not_mem_nil _)
  | cons s ts ih =>
    intro c h
    rw [foldl_options_cons]
    apply ih
    cases s with
    | maxRetries m => exact Or.inl (WithMaxRetries_nonneg m c)
    | rand g =>
      rcases h with h | ⟨n, hn⟩
      · exact Or.inl (by rw [(option_frame (Setting.rand g) c).2.1 (by simp [Setting.field])]
                         exact h)
      · exact Or.inr ⟨n, by simpa using hn⟩
    | multiplier d =>
      rcases h with h | ⟨n, hn⟩
      · exact Or.inl (by
          rw [(option_frame (Setting.multiplier d) c).2.1 (by simp [Setting.field])]
          exact h)
      · exact Or.inr ⟨n, by simpa using hn⟩
    | maxWait d =>
      rcases h with h | ⟨n, hn⟩
      · exact Or.inl (by
          rw [(option_frame (Setting.maxWait d) c).2.1 (by simp [Setting.field])]
          exact h)
      · exact Or.inr ⟨n, by simpa using hn⟩

/-- The base delay is positive once it is so or an option sets it. -/
theorem foldl_multiplier_pos (ss : List Setting) : ∀ c : Config,
    (0 < c.multiplierSeconds ∨ ∃ d, Setting.multiplier d ∈ ss) →
    0 < ((options ss).foldl (fun c opt => opt c) c).multiplierSeconds := by
  induction ss with
  | nil =>
    intro c h
    rcases h with h | ⟨n, hn⟩
    · exact h
    · exact absurd hn (List.not_mem_nil _)
  | cons s ts ih =>
    intro c h
    rw [foldl_options_cons]
    apply ih
    cases s with
    | multiplier m => exact Or.inl (WithMultiplier_pos m c)
    | rand g =>
      rcases h with h | ⟨n, hn⟩
      · exact Or.inl (by
          rw [(option_frame (Setting.rand g) c).2.2.1 (by simp [Setting.field])]
          exact h)
      · exact Or.inr ⟨n, by simpa using hn⟩
    | maxRetries d =>
      rcases h with h | ⟨n, hn⟩
      · exact Or.inl (by
          rw [(option_frame (Setting.maxRetries d) c).2.2.1 (by simp [Setting.field])]
          exact h)
      · exact Or.inr ⟨n, by simpa using hn⟩
    | maxWait d =>
      rcases h with h | ⟨n, hn⟩
      · exact Or.inl (by
          rw [(option_frame (Setting.maxWait d) c).2.2.1 (by simp [Setting.field])]
          exact h)
      · exact Or.inr ⟨n, by simpa using hn⟩

/-- The delay cap is positive once it is so or an option sets it. -/
theorem foldl_maxWait_pos (ss : List Setting) : ∀ c : Config,
    (0 < c.maxWaitSeconds ∨ ∃ d, Setting.maxWait d ∈ ss) →
    0 < ((options ss).foldl (fun c opt => opt c) c).maxWaitSeconds := by
  induction ss with
  | nil =>
    intro c h
    rcases h with h | ⟨n, hn⟩
    · exact h
    · exact absurd hn (List.not_mem_nil _)
  | cons s ts ih =>
    intro c h
    rw [foldl_options_cons]
    apply ih
    cases s with
    | maxWait m => exact Or.inl (WithMaxWait_pos m c)
    | rand g =>
      rcases h with h | ⟨n, hn⟩
      · exact Or.inl (by
          rw [(option_frame (Setting.rand g) c).2.2.2 (by simp [Setting.field])]
          exact h)
      · exact Or.inr ⟨n, by simpa using hn⟩
    | maxRetries d =>
      rcases h with h | ⟨n, hn⟩
      · exact Or.inl (by
          rw [(option_frame (Setting.maxRetries d) c).2.2.2 (by simp [Setting.field])]
          exact h)
      · exact Or.inr ⟨n, by simpa using hn⟩
    | multiplier d =>
      rcases h with h | ⟨n, hn⟩
      · exact Or.inl (by
          rw [(option_frame (Setting.multiplier d) c).2.2.2 (by simp [Setting.field])]
          exact h)
      · exact Or.inr ⟨n, by simpa using hn⟩

/-- C16: validity of a `Config` (`maxRetries >= 0`, `multiplierSeconds > 0`,
`maxWaitSeconds > 0`) is kept by each of `WithRand(r)`, `WithMaxRetries(n)`,
`WithMultiplier(d)`, `WithMaxWait(d)`, whatever the argument; and any `Config`, valid or
not, is valid after a sequence of options, in any order and with any arguments, in which
each of `WithMaxRetries`, `WithMultiplier` and `WithMaxWait` occurs. -/
theorem options_keep_valid :
    (∀ (c : Config), Config.Valid c →
      (∀ r : Ptr Rand, Config.Valid (WithRand r c)) ∧
      (∀ n : Int, Config.Valid (WithMaxRetries n c)) ∧
      (∀ d : Duration, Config.Valid (WithMultiplier d c)) ∧
      (∀ d : Duration, Config.Valid (WithMaxWait d c))) ∧
    (∀ (c : Config) (ss : List Setting),
      (∃ n, Setting.maxRetries n ∈ ss) → (∃ d, Setting.multiplier d ∈ ss) →
      (∃ d, Setting.maxWait d ∈ ss) →
      Config.Valid ((options ss).foldl (fun c opt => opt c) c)) := by
  constructor
  · intro c hc
    obtain ⟨h1, h2, h3⟩ := hc
    refine ⟨fun r => ⟨h1, h2, h3⟩, fun n => ⟨WithMaxRetries_nonneg n c, ?_, ?_⟩,
      fun d => ⟨?_, WithMultiplier_pos d c, ?_⟩, fun d => ⟨?_, ?_, WithMaxWait_pos d c⟩⟩
    · have e : (WithMaxRetries n c).multiplierSeconds = c.multiplierSeconds :=
        (option_frame (Setting.maxRetries n) c).2.2.1 (by simp [Setting.field])
      rw [e]
      exact h2
    · have e : (WithMaxRetries n c).maxWaitSeconds = c.maxWaitSeconds :=
        (option_frame (Setting.maxRetries n) c).2.2.2 (by simp [Setting.field])
      rw [e]
      exact h3
    · have e : (WithMultiplier d c).maxRetries = c.maxRetries :=
        (option_frame (Setting.multiplier d) c).2.1 (by simp [Setting.field])
      rw [e]
      exact h1
    · have e : (WithMultiplier d c).maxWaitSeconds = c.maxWaitSeconds :=
        (option_frame (Setting.multiplier d) c).2.2.2 (by simp [Setting.field])
      rw [e]
      exact h3
    · have e : (WithMaxWait d c).maxRetries = c.maxRetries :=
        (option_frame (Setting.maxWait d) c).2.1 (by simp [Setting.field])
      rw [e]
      exact h1
    · have e : (WithMaxWait d c).multiplierSeconds = c.multiplierSeconds :=
        (option_frame (Setting.maxWait d) c).2.2.1 (by simp [Setting.field])
      rw [e]
      exact h2
  · intro c ss h1 h2 h3
    exact ⟨foldl_maxRetries_nonneg ss c (Or.inr h1), foldl_multiplier_pos ss c (Or.inr h2),
      foldl_maxWait_pos ss c (Or.inr h3)⟩

theorem defaultConfig_valid : Config.Valid defaultConfig := by
  refine ⟨?_, Seconds_pos Multiplier (by decide), Seconds_pos MaxWait (by decide)⟩
  simp [defaultConfig, float64_MaxRetries]

/-- C16, instantiated: invalid arguments applied to the valid default `Config`, and the
three options with invalid arguments applied to the zero `Config`. -/
theorem options_keep_valid_witness :
    Config.Valid defaultConfig ∧
    (Config.Valid (WithMaxRetries (-1) defaultConfig) ∧
      Config.Valid (WithMultiplier 0 defaultConfig) ∧
      Config.Valid (WithMaxWait (-1) defaultConfig)) ∧
    ((∃ n, Setting.maxRetries n ∈
        [Setting.maxWait (-1), Setting.maxRetries (-5), Setting.multiplier 0]) ∧
      (∃ d, Setting.multiplier d ∈
        [Setting.maxWait (-1), Setting.maxRetries (-5), Setting.multiplier 0]) ∧
      (∃ d, Setting.maxWait d ∈
        [Setting.maxWait (-1), Setting.maxRetries (-5), Setting.multiplier 0])) ∧
    Config.Valid ((options
      [Setting.maxWait (-1), Setting.maxRetries (-5), Setting.multiplier 0]).foldl
        (fun c opt => opt c) zeroConfig) :=
  ⟨defaultConfig_valid,
    ⟨((options_keep_valid.1 defaultConfig defaultConfig_valid).2.1 (-1)),
      ((options_keep_valid.1 defaultConfig defaultConfig_valid).2.2.1 0),
      ((options_keep_valid.1 defaultConfig defaultConfig_valid).2.2.2 (-1))⟩,
    ⟨⟨-5, by simp⟩, ⟨0, by simp⟩, ⟨-1, by simp⟩⟩,
    options_keep_valid.2 zeroConfig
      [Setting.maxWait (-1), Setting.maxRetries (-5), Setting.multiplier 0]
      ⟨-5, by simp⟩ ⟨0, by simp⟩ ⟨-1, by simp⟩⟩

/-- Options for different fields commute. -/
theorem option_comm (s t : Setting) (c : Config) (h : s.field ≠ t.field) :
    t.option (s.option c) = s.option (t.option c) := by
  cases s <;> cases t <;>
    first
    | exact absurd rfl h
    | (simp only [Setting.option, WithRand, WithMaxRetries, WithMultiplier, WithMaxWait]
       split_ifs <;> rfl)

/-- The later of two options for the same field wins. -/
theorem option_override (s t : Setting) (c : Config) (h : s.field = t.field) :
    t.option (s.option c) = t.option c := by
  cases s <;> cases t <;>
    first
    | rfl
    | (simp only [Setting.option, WithRand, WithMaxRetries, WithMultiplier, WithMaxWait]
       split_ifs <;> rfl)
    | exact absurd h (by simp [Setting.field])

/-- C19: each option writes only its own field: `WithRand` only `random`,
`WithMaxRetries` only `maxRetries`, `WithMultiplier` only `multiplierSeconds`,
`WithMaxWait` only `maxWaitSeconds`. A max wait smaller than the multiplier is stored as
given next to it. Two options for different fields give the same `Config` in either
order, and an option applied after another option for the same field gives the `Config`
that it gives alone. -/
theorem options_frame_and_order :
    (∀ (r : Ptr Rand) (c : Config),
      (WithRand r c).random = r ∧ (WithRand r c).maxRetries = c.maxRetries ∧
      (WithRand r c).multiplierSeconds = c.multiplierSeconds ∧
      (WithRand r c).maxWaitSeconds = c.maxWaitSeconds) ∧
    (∀ (n : Int) (c : Config),
      (WithMaxRetries n c).random = c.random ∧
      (WithMaxRetries n c).multiplierSeconds = c.multiplierSeconds ∧
      (WithMaxRetries n c).maxWaitSeconds = c.maxWaitSeconds) ∧
    (∀ (d : Duration) (c : Config),
      (WithMultiplier d c).random = c.random ∧
      (WithMultiplier d c).maxRetries = c.maxRetries ∧
      (WithMultiplier d c).maxWaitSeconds = c.maxWaitSeconds) ∧
    (∀ (d : Duration) (c : Config),
      (WithMaxWait d c).random = c.random ∧
      (WithMaxWait d c).maxRetries = c.maxRetries ∧
      (WithMaxWait d c).multiplierSeconds = c.multiplierSeconds) ∧
    (∀ (d e : Duration) (c : Config), 0 < d → d < e →
      (WithMaxWait d (WithMultiplier e c)).maxWaitSeconds = Duration.Seconds d ∧
      (WithMaxWait d (WithMultiplier e c)).multiplierSeconds = Duration.Seconds e ∧
      (WithMultiplier e (WithMaxWait d c)).maxWaitSeconds = Duration.Seconds d ∧
      (WithMultiplier e (WithMaxWait d c)).multiplierSeconds = Duration.Seconds e) ∧
    (∀ (s t : Setting) (c : Config), s.field ≠ t.field →
      t.option (s.option c) = s.option (t.option c)) ∧
    (∀ (s t : Setting) (c : Config), s.field = t.field →
      t.option (s.option c) = t.option c) := by
  refine ⟨?_, ?_, ?_, ?_, ?_, option_comm, option_override⟩
  · intro r c
    exact ⟨rfl, rfl, rfl, rfl⟩
  · intro n c
    by_cases h : n < 0 <;> simp [WithMaxRetries, h]
  · intro d c
    by_cases h : d ≤ 0 <;> simp [WithMultiplier, h]
  · intro d c
    by_cases h : d ≤ 0 <;> simp [WithMaxWait, h]
  · intro d e c hd hde
    have he : 0 < e := lt_trans hd hde
    simp [WithMaxWait, WithMultiplier, not_le.mpr hd, not_le.mpr he]

/-- C19, instantiated: a max wait of 1 s next to a multiplier of 5 s, two options for
different fields in both orders, and two options for the same field. -/
theorem options_frame_and_order_witness :
    ((0 : Duration) < 1 * Second ∧ (1 * Second : Duration) < 5 * Second) ∧
    ((WithMaxWait (1 * Second) (WithMultiplier (5 * Second) zeroConfig)).maxWaitSeconds =
        Duration.Seconds (1 * Second) ∧
      (WithMaxWait (1 * Second) (WithMultiplier (5 * Second) zeroConfig)).multiplierSeconds =
        Duration.Seconds (5 * Second) ∧
      (WithMultiplier (5 * Second) (WithMaxWait (1 * Second) zeroConfig)).maxWaitSeconds =
        Duration.Seconds (1 * Second) ∧
      (WithMultiplier (5 * Second) (WithMaxWait (1 * Second) zeroConfig)).multiplierSeconds =
        Duration.Seconds (5 * Second)) ∧
    ((Setting.maxRetries 3).field ≠ (Setting.maxWait (-1)).field ∧
      (Setting.maxWait (-1)).option ((Setting.maxRetries 3).option zeroConfig) =
        (Setting.maxRetries 3).option ((Setting.maxWait (-1)).option zeroConfig)) ∧
    ((Setting.maxRetries 3).field = (Setting.maxRetries (-1)).field ∧
      (Setting.maxRetries (-1)).option ((Setting.maxRetries 3).option zeroConfig) =
        (Setting.maxRetries (-1)).option zeroConfig) :=
  ⟨by decide,
    options_frame_and_order.2.2.2.2.1 (1 * Second) (5 * Second) zeroConfig (by decide)
      (by decide),
    ⟨by decide,
      options_frame_and_order.2.2.2.2.2.1 (Setting.maxRetries 3) (Setting.maxWait (-1))
        zeroConfig (by decide)⟩,
    ⟨by decide,
      options_frame_and_order.2.2.2.2.2.2 (Setting.maxRetries 3) (Setting.maxRetries (-1))
        zeroConfig (by decide)⟩⟩

/-! ## `Run`: the protocol -/

section
variable {W ε : Type} (ctx : Context W) (r : Retryer W) (f : Work W ε)

/-- Every trace of the loop, entered with the counter of attempt `k`, follows the
protocol from attempt `k` on. -/
theorem loop_protocol (fuel : Nat) : ∀ (k : Nat) (err : error ε) (w : W) (out : Result ε),
    Run.loop ctx r f fuel (wrapInt k) err w = some out → Protocol k out.trace := by
  induction fuel with
  | zero => intro k err w out h; simp [Run.loop] at h
  | succ n ih =>
    intro k err w out h
    rw [loop_eq] at h
    have hk : wrapInt ((k : Int) + 1) = wrapInt (((k + 1 : Nat) : Int)) := by
      push_cast
      rfl
    by_cases hN : (r.Next w).1 = true
    · rw [if_pos hN] at h
      rcases hf : (f (wrapInt k) (r.Next w).2).1 with _ | e
      · rw [hf] at h
        simp only [Option.some.injEq] at h
        subst h
        exact Protocol.success k
      · rw [hf] at h
        simp only at h
        by_cases hpos : 0 < (r.Delay (f (wrapInt k) (r.Next w).2).2).1
        · rw [if_pos hpos] at h
          by_cases hc : (ctx (r.Delay (f (wrapInt k) (r.Next w).2).2).1
              (r.Delay (f (wrapInt k) (r.Next w).2).2).2).1 = true
          · rw [if_pos hc] at h
            simp only [Option.some.injEq] at h
            subst h
            exact Protocol.cancel k e _ hpos
          · rw [if_neg hc, wrapInt_wrapInt_add_one, hk] at h
            rcases hl : Run.loop ctx r f n (wrapInt ((k + 1 : Nat) : Int)) (some e)
                (ctx (r.Delay (f (wrapInt k) (r.Next w).2).2).1
                  (r.Delay (f (wrapInt k) (r.Next w).2).2).2).2 with _ | res
            · rw [hl] at h; simp at h
            · rw [hl] at h
              simp only [Option.map_some', Option.some.injEq] at h
              subst h
              exact Protocol.wait k e _ res.trace hpos (ih _ _ _ _ hl)
        · rw [if_neg hpos, wrapInt_wrapInt_add_one, hk] at h
          rcases hl : Run.loop ctx r f n (wrapInt ((k + 1 : Nat) : Int)) (some e)
              (r.Delay (f (wrapInt k) (r.Next w).2).2).2 with _ | res
          · rw [hl] at h; simp at h
          · rw [hl] at h
            simp only [Option.map_some', Option.some.injEq] at h
            subst h
            exact Protocol.skip k e _ res.trace hpos (ih _ _ _ _ hl)
    · rw [if_neg hN] at h
      simp only [Option.some.injEq] at h
      subst h
      exact Protocol.stop k

/-- Every trace of `Run` follows the protocol from attempt 1 on. -/
theorem Run_follows_protocol (fuel : Nat) (w : W) (out : Result ε)
    (h : Run fuel ctx r f w = some out) : Protocol 1 out.trace := by
  have h1 : (1 : Int) = wrapInt ((1 : Nat) : Int) := by decide
  unfold Run at h
  rw [h1] at h
  exact loop_protocol ctx r f fuel 1 none w out h

end

/-- In a trace of the protocol the `j`-th call of `f`, counted from 0, receives the
number of attempt `k + j` as an `int`. -/
theorem protocol_attempts {ε : Type} (k : Nat) (tr : List (Event ε)) (h : Protocol k tr) :
    ∀ (j : Nat) (c : Int × error ε), (calls tr)[j]? = some c →
      c.1 = wrapInt (((k + j : Nat) : Int)) := by
  induction h with
  | stop k => intro j c hc; simp [calls] at hc
  | success k =>
    intro j c hc
    cases j with
    | zero => simp [calls] at hc; rw [← hc]; rfl
    | succ j => simp [calls] at hc
  | cancel k e d hd =>
    intro j c hc
    cases j with
    | zero => simp [calls] at hc; rw [← hc]; rfl
    | succ j => simp [calls] at hc
  | wait k e d rest hd _ ih =>
    intro j c hc
    cases j with
    | zero => simp [calls] at hc; rw [← hc]; rfl
    | succ j =>
      simp only [calls, List.getElem?_cons_succ] at hc
      rw [ih j c hc]
      congr 2
      omega
  | skip k e d rest hd _ ih =>
    intro j c hc
    cases j with
    | zero => simp [calls] at hc; rw [← hc]; rfl
    | succ j =>
      simp only [calls, List.getElem?_cons_succ] at hc
      rw [ih j c hc]
      congr 2
      omega

/-- In a trace of the protocol `Next` returned `true` once for each call of `f`. -/
theorem protocol_nexts {ε : Type} (k : Nat) (tr : List (Event ε)) (h : Protocol k tr) :
    (calls tr).length = (nexts tr).count true := by
  induction h with
  | stop k => simp [calls, nexts]
  | success k => simp [calls, nexts]
  | cancel k e d hd => simp [calls, nexts]
  | wait k e d rest hd _ ih => simp [calls, nexts, ih]
  | skip k e d rest hd _ ih => simp [calls, nexts, ih]

/-- In a trace of the protocol `Delay` was called once for each failed call of `f`. -/
theorem protocol_delays {ε : Type} (k : Nat) (tr : List (Event ε)) (h : Protocol k tr) :
    (delays tr).length = ((calls tr).filter (fun c => c.2.isSome)).length := by
  induction h with
  | stop k => simp [calls, delays]
  | success k => simp [calls, delays]
  | cancel k e d hd => simp [calls, delays]
  | wait k e d rest hd _ ih => simp [calls, delays, ih]
  | skip k e d rest hd _ ih => simp [calls, delays, ih]

/-- In a trace of the protocol every wait comes right after a `Delay` that returned the
positive duration waited for. -/
theorem protocol_waits {ε : Type} (k : Nat) (tr : List (Event ε)) (h : Protocol k tr) :
    ∀ (pre post : List (Event ε)) (x : Event ε) (d : Duration),
      tr = pre ++ x :: post → (x = Event.timer d ∨ x = Event.done d) →
      0 < d ∧ ∃ pre', pre = pre' ++ [Event.delay d] := by
  induction h with
  | stop k =>
    intro pre post x d htr hx
    rcases pre with _ | ⟨a, pre⟩
    · simp at htr
      rcases hx with hx | hx <;> rw [hx] at htr <;> simp at htr
    · simp at htr
  | success k =>
    intro pre post x d htr hx
    rcases pre with _ | ⟨a, _ | ⟨b, pre⟩⟩
    · simp at htr
      rcases hx with hx | hx <;> rw [hx] at htr <;> simp at htr
    · simp at htr
      rcases hx with hx | hx <;> rw [hx] at htr <;> simp at htr
    · simp at htr
  | cancel k e d0 hd =>
    intro pre post x d htr hx
    rcases pre with _ | ⟨a, _ | ⟨b, _ | ⟨c, _ | ⟨g, pre⟩⟩⟩⟩
    · simp at htr
      rcases hx with hx | hx <;> rw [hx] at htr <;> simp at htr
    · simp at htr
      rcases hx with hx | hx <;> rw [hx] at htr <;> simp at htr
    · simp at htr
      rcases hx with hx | hx <;> rw [hx] at htr <;> simp at htr
    · simp at htr
      obtain ⟨ha, hb, hc, hx', _⟩ := htr
      rcases hx with hx | hx
      · rw [hx] at hx'; simp at hx'
      · rw [hx] at hx'
        simp at hx'
        subst hx'
        exact ⟨hd, [a, b], by rw [← hc]; rfl⟩
    · simp at htr
  | wait k e d0 rest hd _ ih =>
    intro pre post x d htr hx
    rcases pre with _ | ⟨a, _ | ⟨b, _ | ⟨c, _ | ⟨g, pre⟩⟩⟩⟩
    · simp at htr
      rcases hx with hx | hx <;> rw [hx] at htr <;> simp at htr
    · simp at htr
      rcases hx with hx | hx <;> rw [hx] at htr <;> simp at htr
    · simp at htr
      rcases hx with hx | hx <;> rw [hx] at htr <;> simp at htr
    · simp at htr
      obtain ⟨ha, hb, hc, hx', _⟩ := htr
      rcases hx with hx | hx
      · rw [hx] at hx'
        simp at hx'
        subst hx'
        exact ⟨hd, [a, b], by rw [← hc]; rfl⟩
      · rw [hx] at hx'; simp at hx'
    · simp at htr
      obtain ⟨ha, hb, hc, hg, hrest⟩ := htr
      obtain ⟨hpos, pre', hpre⟩ := ih pre post x d hrest hx
      exact ⟨hpos, a :: b :: c :: g :: pre', by rw [hpre]; rfl⟩
  | skip k e d0 rest hd _ ih =>
    intro pre post x d htr hx
    rcases pre with _ | ⟨a, _ | ⟨b, _ | ⟨c, pre⟩⟩⟩
    · simp at htr
      rcases hx with hx | hx <;> rw [hx] at htr <;> simp at htr
    · simp at htr
      rcases hx with hx | hx <;> rw [hx] at htr <;> simp at htr
    · simp at htr
      rcases hx with hx | hx <;> rw [hx] at htr <;> simp at htr
    · simp at htr
      obtain ⟨ha, hb, hc, hrest⟩ := htr
      obtain ⟨hpos, pre', hpre⟩ := ih pre post x d hrest hx
      exact ⟨hpos, a :: b :: c :: pre', by rw [hpre]; rfl⟩

/-! ## `Run`: the context -/

section
variable {W ε : Type} (r : Retryer W) (f : Work W ε)

/-- When `Delay` never returns a positive duration the loop does not depend on the
context. -/
theorem loop_ignores_context (hD : ∀ w, (r.Delay w).1 ≤ 0) (ctx ctx' : Context W)
    (fuel : Nat) : ∀ (i : Int) (err : error ε) (w : W),
    Run.loop ctx r f fuel i err w = Run.loop ctx' r f fuel i err w := by
  induction fuel with
  | zero => intro i err w; rfl
  | succ n ih =>
    intro i err w
    rw [loop_eq, loop_eq]
    have hneg : ¬ 0 < (r.Delay (f i (r.Next w).2).2).1 := not_lt.mpr (hD _)
    by_cases hN : (r.Next w).1 = true
    · rw [if_pos hN, if_pos hN]
      rcases hf : (f i (r.Next w).2).1 with _ | e
      · rfl
      · simp only
        rw [if_neg hneg, if_neg hneg, ih]
    · rw [if_neg hN, if_neg hN]

/-- When `Delay` never returns a positive duration a trace of the protocol has no
wait. -/
theorem protocol_no_waits (k : Nat) (tr : List (Event ε)) (h : Protocol k tr)
    (hd : ∀ d, d ∈ delays tr → d ≤ 0) : waits tr = [] := by
  induction h with
  | stop k => rfl
  | success k => rfl
  | cancel k e d hpos =>
    exact absurd (hd d (by simp [delays])) (not_le.mpr hpos)
  | wait k e d rest hpos _ _ =>
    exact absurd (hd d (by simp [delays])) (not_le.mpr hpos)
  | skip k e d rest hneg _ ih =>
    have : ∀ d', d' ∈ delays rest → d' ≤ 0 := fun d' hd' => hd d' (by simp [delays, hd'])
    simpa [waits] using ih this

/-- The delays in a trace of the loop are values returned by `Delay`. -/
theorem loop_delays (ctx : Context W) (fuel : Nat) :
    ∀ (i : Int) (err : error ε) (w : W) (out : Result ε),
    Run.loop ctx r f fuel i err w = some out →
    ∀ d, d ∈ delays out.trace → ∃ w', d = (r.Delay w').1 := by
  induction fuel with
  | zero => intro i err w out h; simp [Run.loop] at h
  | succ n ih =>
    intro i err w out h
    rw [loop_eq] at h
    by_cases hN : (r.Next w).1 = true
    · rw [if_pos hN] at h
      rcases hf : (f i (r.Next w).2).1 with _ | e
      · rw [hf] at h
        simp only [Option.some.injEq] at h
        subst h
        intro d hd
        simp [delays] at hd
      · rw [hf] at h
        simp only at h
        by_cases hpos : 0 < (r.Delay (f i (r.Next w).2).2).1
        · rw [if_pos hpos] at h
          by_cases hc : (ctx (r.Delay (f i (r.Next w).2).2).1
              (r.Delay (f i (r.Next w).2).2).2).1 = true
          · rw [if_pos hc] at h
            simp only [Option.some.injEq] at h
            subst h
            intro d hd
            simp [delays] at hd
            exact ⟨_, hd⟩
          · rw [if_neg hc] at h
            rcases hl : Run.loop ctx r f n (wrapInt (i + 1)) (some e)
                (ctx (r.Delay (f i (r.Next w).2).2).1
                  (r.Delay (f i (r.Next w).2).2).2).2 with _ | res
            · rw [hl] at h; simp at h
            · rw [hl] at h
              simp only [Option.map_some', Option.some.injEq] at h
              subst h
              intro d hd
              simp only [Result.after, List.cons_append, List.nil_append, delays,
                List.mem_cons] at hd
              rcases hd with hd | hd
              · exact ⟨_, hd⟩
              · exact ih _ _ _ _ hl d hd
        · rw [if_neg hpos] at h
          rcases hl : Run.loop ctx r f n (wrapInt (i + 1)) (some e)
              (r.Delay (f i (r.Next w).2).2).2 with _ | res
          · rw [hl] at h; simp at h
          · rw [hl] at h
            simp only [Option.map_some', Option.some.injEq] at h
            subst h
            intro d hd
            simp only [Result.after, List.cons_append, List.nil_append, delays,
              List.mem_cons] at hd
            rcases hd with hd | hd
            · exact ⟨_, hd⟩
            · exact ih _ _ _ _ hl d hd
    · rw [if_neg hN] at h
      simp only [Option.some.injEq] at h
      subst h
      intro d hd
      simp [delays] at hd

end

/-- C17: for every retryer whose `Delay` always returns a value `<= 0`, every work
function and every two contexts (never cancelled, cancelled during the run, cancelled
before the run), `Run` gives the same thing for the same bound: it returns under the one
exactly when it returns under the other, with the same value and the same calls. The
trace has no wait, and `f` is invoked once per `true` result of `Next`. -/
theorem Run_without_waits {W ε : Type} (r : Retryer W) (f : Work W ε) (w : W)
    (hD : ∀ w', (r.Delay w').1 ≤ 0) (fuel : Nat) (ctx ctx' : Context W) :
    Run fuel ctx r f w = Run fuel ctx' r f w ∧
    ∀ out, Run fuel ctx r f w = some out →
      waits out.trace = [] ∧ (calls out.trace).length = (nexts out.trace).count true := by
  refine ⟨loop_ignores_context r f hD ctx ctx' fuel 1 none w, ?_⟩
  intro out h
  have hp := Run_follows_protocol ctx r f fuel w out h
  refine ⟨protocol_no_waits 1 out.trace hp ?_, protocol_nexts 1 out.trace hp⟩
  intro d hd
  obtain ⟨w', hw'⟩ := loop_delays r f ctx fuel 1 none w out h d hd
  rw [hw']
  exact hD w'

/-- C17, instantiated: a retryer that allows three attempts and whose `Delay` is 0, a
work function that always fails, a context never cancelled and one already cancelled. -/
theorem Run_without_waits_witness :
    (∀ w' : Nat, ((budget 3 0).Delay w').1 ≤ 0) ∧
    Run 4 background (budget 3 0) failing 0 = Run 4 cancelled (budget 3 0) failing 0 ∧
    Run 4 background (budget 3 0) failing 0 =
      some { err := some 3,
             trace := [Event.next true, Event.call 1 (some 1), Event.delay 0,
                       Event.next true, Event.call 2 (some 2), Event.delay 0,
                       Event.next true, Event.call 3 (some 3), Event.delay 0,
                       Event.next false] } :=
  ⟨fun _ => le_refl _,
    (Run_without_waits (budget 3 0) failing 0 (fun _ => le_refl _) 4 background cancelled).1,
    by decide⟩

/-- When `Next` allows the attempt, the trace of the loop starts with that `Next` and
the call of `f`. -/
theorem loop_first {W ε : Type} (ctx : Context W) (r : Retryer W) (f : Work W ε)
    (fuel : Nat) (i : Int) (err : error ε) (w : W) (out : Result ε)
    (hN : (r.Next w).1 = true) (h : Run.loop ctx r f fuel i err w = some out) :
    ∃ rest, out.trace = Event.next true :: Event.call i (f i (r.Next w).2).1 :: rest := by
  cases fuel with
  | zero => simp [Run.loop] at h
  | succ n =>
    rw [loop_eq, if_pos hN] at h
    rcases hf : (f i (r.Next w).2).1 with _ | e
    · rw [hf] at h
      simp only [Option.some.injEq] at h
      subst h
      exact ⟨[], rfl⟩
    · rw [hf] at h
      simp only at h
      by_cases hpos : 0 < (r.Delay (f i (r.Next w).2).2).1
      · rw [if_pos hpos] at h
        by_cases hc : (ctx (r.Delay (f i (r.Next w).2).2).1
            (r.Delay (f i (r.Next w).2).2).2).1 = true
        · rw [if_pos hc] at h
          simp only [Option.some.injEq] at h
          subst h
          exact ⟨_, rfl⟩
        · rw [if_neg hc] at h
          rcases hl : Run.loop ctx r f n (wrapInt (i + 1)) (some e)
              (ctx (r.Delay (f i (r.Next w).2).2).1
                (r.Delay (f i (r.Next w).2).2).2).2 with _ | res
          · rw [hl] at h; simp at h
          · rw [hl] at h
            simp only [Option.map_some', Option.some.injEq] at h
            subst h
            exact ⟨_, rfl⟩
      · rw [if_neg hpos] at h
        rcases hl : Run.loop ctx r f n (wrapInt (i + 1)) (some e)
            (r.Delay (f i (r.Next w).2).2).2 with _ | res
        · rw [hl] at h; simp at h
        · rw [hl] at h
          simp only [Option.map_some', Option.some.injEq] at h
          subst h
          exact ⟨_, rfl⟩

/-- C18: for every retryer whose first `Next` returns `true` and every context, one
already cancelled included: every trace of `Run` starts with that `Next` and the call of
`f` with attempt 1, and every wait in it, the only place where the context is
consulted, comes right after a `Delay` that returned the positive duration waited for.
With the context already cancelled, when attempt 1 succeeds or is followed by a positive
delay, `Run` returns having invoked `f` exactly once, with attempt 1. -/
theorem Run_consults_context_at_wait_only {W ε : Type} (ctx : Context W) (r : Retryer W)
    (f : Work W ε) (w : W) (hN : (r.Next w).1 = true) :
    (∀ fuel out, Run fuel ctx r f w = some out →
      ∃ rest, out.trace = Event.next true :: Event.call 1 (f 1 (r.Next w).2).1 :: rest) ∧
    (∀ fuel out, Run fuel ctx r f w = some out →
      ∀ (pre post : List (Event ε)) (x : Event ε) (d : Duration),
        out.trace = pre ++ x :: post → (x = Event.timer d ∨ x = Event.done d) →
        0 < d ∧ ∃ pre', pre = pre' ++ [Event.delay d]) ∧
    (∀ fuel, ((f 1 (r.Next w).2).1 = none ∨ 0 < (r.Delay (f 1 (r.Next w).2).2).1) →
      ∃ out, Run (fuel + 1) cancelled r f w = some out ∧
        calls out.trace = [(1, (f 1 (r.Next w).2).1)]) := by
  refine ⟨?_, ?_, ?_⟩
  · intro fuel out h
    exact loop_first ctx r f fuel 1 none w out hN h
  · intro fuel out h
    exact protocol_waits 1 out.trace (Run_follows_protocol ctx r f fuel w out h)
  · intro fuel hcase
    unfold Run
    rw [loop_eq, if_pos hN]
    rcases hf : (f 1 (r.Next w).2).1 with _ | e
    · exact ⟨_, rfl, rfl⟩
    · rw [hf] at hcase
      have hpos : 0 < (r.Delay (f 1 (r.Next w).2).2).1 := by
        rcases hcase with hc | hc
        · exact absurd hc (by simp)
        · exact hc
      simp only
      rw [if_pos hpos]
      have hdone : (cancelled (r.Delay (f 1 (r.Next w).2).2).1
          (r.Delay (f 1 (r.Next w).2).2).2).1 = true := rfl
      rw [if_pos hdone]
      exact ⟨_, rfl, rfl⟩

/-- C18, instantiated: a retryer that allows three attempts with a delay of 5 ns, a work
function that always fails, and a context already cancelled: `f` is invoked with
attempt 1, and then the wait ends `Run`. -/
theorem Run_consults_context_at_wait_only_witness :
    ((budget 3 5).Next 0).1 = true ∧
    ((failing 1 ((budget 3 5).Next 0).2 : error Int × Nat).1 = none ∨
      0 < ((budget 3 5).Delay ((failing 1 ((budget 3 5).Next 0).2 : error Int × Nat)).2).1) ∧
    ∃ out : Result Int, Run (0 + 1) cancelled (budget 3 5) failing 0 = some out ∧
      calls out.trace = [(1, (failing 1 ((budget 3 5).Next 0).2 : error Int × Nat).1)] :=
  ⟨by decide, Or.inr (by decide),
    (Run_consults_context_at_wait_only cancelled (budget 3 5) failing 0 (by decide)).2.2 0
      (Or.inr (by decide))⟩

/-! ## `Run`: the strictly sequential protocol -/

/-- The loop reads its retryer through `Next` and `Delay` only. -/
theorem loop_ignores_reset {W ε : Type} (ctx : Context W) (r : Retryer W) (f : Work W ε)
    (reset : W → W) (fuel : Nat) : ∀ (i : Int) (err : error ε) (w : W),
    Run.loop ctx { Next := r.Next, Delay := r.Delay, Reset := reset } f fuel i err w =
      Run.loop ctx r f fuel i err w := by
  induction fuel with
  | zero => intro i err w; rfl
  | succ n ih =>
    intro i err w
    rw [loop_eq, loop_eq]
    simp only [ih]

/-- The world of a `budget` retryer counts the passes, when work function and context
leave it alone. -/
theorem budget_passes_keep (ctx : Context Nat) (f : Work Nat Int)
    (hf : ∀ i w, (f i w).2 = w) (hc : ∀ d w, (ctx d w).2 = w)
    (n : Nat) (d : Duration) (j : Nat) : ∀ (i : Int) (w : Nat),
    (passes ctx (budget n d) f j (i, w)).2 = w + j := by
  induction j with
  | zero => intro i w; rfl
  | succ k ih =>
    intro i w
    rw [passes, ih]
    simp only [pass, budget, hf, hc]
    split <;> omega

/-- C20, amended: every trace of `Run` follows the strictly sequential protocol `Next`,
`f`, `Delay`, wait, `Next`, `f`, ... from attempt 1 on, in which `Next` is called once
before each call of `f`, `Delay` once after each failed call of `f` and never after a
successful one or after a `Next` that returned `false`, and an attempt begins only after
the delay of the attempt before has been obtained and, when positive, waited out. The
`i`-th call of `f` receives `i` for `i < 2^63`, and in general `i` wrapped into the range
of `int`. `Run` gives the same result whatever `Reset` is: it never calls it. -/
theorem Run_sequential_protocol {W ε : Type} (fuel : Nat) (ctx : Context W)
    (r : Retryer W) (f : Work W ε) (w : W) (out : Result ε)
    (h : Run fuel ctx r f w = some out) :
    Protocol 1 out.trace ∧
    (∀ (j : Nat) (c : Int × error ε), (calls out.trace)[j]? = some c →
      c.1 = wrapInt ((j : Int) + 1) ∧
      ((j : Int) + 1 < 9223372036854775808 → c.1 = (j : Int) + 1)) ∧
    (calls out.trace).length = (nexts out.trace).count true ∧
    (delays out.trace).length = ((calls out.trace).filter (fun c => c.2.isSome)).length ∧
    (∀ reset : W → W,
      Run fuel ctx { Next := r.Next, Delay := r.Delay, Reset := reset } f w = some out) := by
  have hp := Run_follows_protocol ctx r f fuel w out h
  refine ⟨hp, ?_, protocol_nexts 1 out.trace hp, protocol_delays 1 out.trace hp, ?_⟩
  · intro j c hc
    have ha := protocol_attempts 1 out.trace hp j c hc
    have he : wrapInt (((1 + j : Nat) : Int)) = wrapInt ((j : Int) + 1) := by
      congr 1
      push_cast
      ring
    rw [he] at ha
    refine ⟨ha, fun hlt => ?_⟩
    rw [ha]
    apply wrapInt_of_lt <;> omega
  · intro reset
    unfold Run
    rw [loop_ignores_reset]
    exact h

/-- C20 amended, instantiated: a retryer that allows two attempts with a delay of 5 ns, a
work function that always fails and a context that is never cancelled. -/
theorem Run_sequential_protocol_witness :
    Run 3 background (budget 2 5) failing 0 =
      some { err := some 2,
             trace := [Event.next true, Event.call 1 (some 1), Event.delay 5, Event.timer 5,
                       Event.next true, Event.call 2 (some 2), Event.delay 5, Event.timer 5,
                       Event.next false] } ∧
    Protocol 1 [Event.next true, Event.call 1 (some (1 : Int)), Event.delay 5, Event.timer 5,
      Event.next true, Event.call 2 (some 2), Event.delay 5, Event.timer 5,
      Event.next false] :=
  ⟨by decide,
    (Run_sequential_protocol 3 background (budget 2 5) failing 0
      { err := some 2,
        trace := [Event.next true, Event.call 1 (some 1), Event.delay 5, Event.timer 5,
                  Event.next true, Event.call 2 (some 2), Event.delay 5, Event.timer 5,
                  Event.next false] } (by decide)).1⟩

/-- C20, as stated for every `i`, fails at `i = 2^63`: with a retryer that allows
`2^63 + 1` attempts without delay, a context that is never cancelled, and a work
function that succeeds when it receives `-2^63` and fails otherwise, `Run` returns nil
after exactly `2^63` calls of `f`: the `2^63`-th call of `f` received `-2^63`, not
`2^63`. -/
theorem Run_call_receives_wrapped :
    ∃ out : Result Int,
      (∀ fuel, 9223372036854775808 ≤ fuel →
        Run fuel background (budget 9223372036854775809 0)
          (succeedsOn (-9223372036854775808)) 0 = some out) ∧
      out.err = none ∧
      (calls out.trace).length = 9223372036854775808 ∧
      (calls out.trace)[9223372036854775807]? = some (-9223372036854775808, none) := by
  have hf : ∀ (i : Int) (w : Nat),
      ((succeedsOn (-9223372036854775808) : Work Nat Int) i w).2 = w := fun _ _ => rfl
  have hc : ∀ (d : Duration) (w : Nat), ((background : Context Nat) d w).2 = w :=
    fun _ _ => rfl
  have hw : ∀ j, (passes background (budget 9223372036854775809 0)
      (succeedsOn (-9223372036854775808)) j (1, 0)).2 = j := by
    intro j
    rw [budget_passes_keep background _ hf hc]
    omega
  have hround : ∀ j, j < 9223372036854775807 →
      Retries background (budget 9223372036854775809 0) (succeedsOn (-9223372036854775808))
        (passes background (budget 9223372036854775809 0)
          (succeedsOn (-9223372036854775808)) j (1, 0)) := by
    intro j hj
    refine ⟨?_, ?_, ?_⟩
    · rw [hw j]
      exact decide_eq_true (by omega)
    · rw [passes_counter]
      have hne : wrapInt ((j : Int) + 1) ≠ -9223372036854775808 := by
        rw [wrapInt_of_lt _ (by omega) (by omega)]
        omega
      simp [succeedsOn, hne]
    · simp [cancels, budget]
  have hnext : ((budget 9223372036854775809 0).Next
      (passes background (budget 9223372036854775809 0)
        (succeedsOn (-9223372036854775808)) 9223372036854775807 (1, 0)).2).1 = true := by
    rw [hw]
    simp [budget]
  have hlast : (passes background (budget 9223372036854775809 0)
      (succeedsOn (-9223372036854775808)) 9223372036854775807 (1, 0)).1 =
      -9223372036854775808 := by
    rw [passes_counter]
    unfold wrapInt
    omega
  have hsucc : ((succeedsOn (-9223372036854775808) : Work Nat Int)
      (passes background (budget 9223372036854775809 0)
        (succeedsOn (-9223372036854775808)) 9223372036854775807 (1, 0)).1
      ((budget 9223372036854775809 0).Next
        (passes background (budget 9223372036854775809 0)
          (succeedsOn (-9223372036854775808)) 9223372036854775807 (1, 0)).2).2).1 = none := by
    rw [hlast]
    simp [succeedsOn]
  refine ⟨{ err := none,
            trace := passesEvents background (budget 9223372036854775809 0)
              (succeedsOn (-9223372036854775808)) 9223372036854775807 (1, 0) ++
              [Event.next true,
               Event.call (passes background (budget 9223372036854775809 0)
                 (succeedsOn (-9223372036854775808)) 9223372036854775807 (1, 0)).1 none] },
    ?_, rfl, ?_, ?_⟩
  · intro fuel hfuel
    obtain ⟨k, rfl⟩ : ∃ k, fuel = 9223372036854775807 + (k + 1) :=
      ⟨fuel - 9223372036854775808, by omega⟩
    exact loop_passes_success background (budget 9223372036854775809 0)
      (succeedsOn (-9223372036854775808)) 9223372036854775807 k (1, 0) none hround hnext hsucc
  · show (calls (passesEvents background (budget 9223372036854775809 0)
      (succeedsOn (-9223372036854775808)) 9223372036854775807 (1, 0) ++ _)).length = _
    rw [calls_append, List.length_append, calls_passesEvents, List.length_map,
      List.length_range]
    rfl
  · show (calls (passesEvents background (budget 9223372036854775809 0)
      (succeedsOn (-9223372036854775808)) 9223372036854775807 (1, 0) ++ _))[_]? = _
    rw [calls_append, hlast]
    have hlen : (calls (passesEvents background (budget 9223372036854775809 0)
        (succeedsOn (-9223372036854775808)) 9223372036854775807 (1, 0))).length =
        9223372036854775807 := by
      rw [calls_passesEvents, List.length_map, List.length_range]
    have hcalls : calls [Event.next true,
        (Event.call (-9223372036854775808) none : Event Int)] =
        [(-9223372036854775808, none)] := rfl
    rw [hcalls]
    have := List.getElem?_concat_length (calls (passesEvents background
      (budget 9223372036854775809 0) (succeedsOn (-9223372036854775808))
      9223372036854775807 (1, 0))) ((-9223372036854775808 : Int), (none : error Int))
    rw [hlen] at this
    exact this

end Backoff
